import Mathlib

/-!
Verification of the Swaad recipe-recommendation core (backend/main.py).

Strings are modelled as `List Char` over the ASCII fragment (menu text in the
code base is ASCII); Python `re` character classes `\s`, `\d`, `\w` and the
literal classes used by the source are modelled per character code.  Python
float arithmetic on length ratios is modelled with exact rationals (the
ratios compared are quotients of small naturals against 3/10 resp. 1/2, where
float and exact comparison agree).  `numpy`/`sklearn` real arithmetic
(cosine similarity) is modelled over `ℝ`.
-/

namespace Swaad

set_option maxRecDepth 20000

abbrev Str := List Char

def strL (s : String) : Str := s.toList

/-! ### Character classes (Python `str`/`re`, ASCII fragment) -/

-- Python whitespace: space, tab, newline, carriage return, vertical tab, form feed
def isWsC (c : Char) : Bool :=
  decide (c.toNat = 32 ∨ c.toNat = 9 ∨ c.toNat = 10 ∨ c.toNat = 13 ∨
    c.toNat = 11 ∨ c.toNat = 12)

def isDigitC (c : Char) : Bool := decide (48 ≤ c.toNat ∧ c.toNat ≤ 57)

def isUpperC (c : Char) : Bool := decide (65 ≤ c.toNat ∧ c.toNat ≤ 90)

def isLowerC (c : Char) : Bool := decide (97 ≤ c.toNat ∧ c.toNat ≤ 122)

def isAlphaC (c : Char) : Bool := isUpperC c || isLowerC c

-- `\w` : alphanumeric or underscore
def isWordC (c : Char) : Bool := isAlphaC c || isDigitC c || decide (c.toNat = 95)

-- the class kept by `re.sub(r'[^\w\s\-\'&,()]', '', name)`:
-- word chars, whitespace, hyphen 45, apostrophe 39, ampersand 38, comma 44,
-- parentheses 40/41
def isKeepC (c : Char) : Bool :=
  isWordC c || isWsC c ||
    decide (c.toNat = 45 ∨ c.toNat = 39 ∨ c.toNat = 38 ∨ c.toNat = 44 ∨
      c.toNat = 40 ∨ c.toNat = 41)

-- the class removed by `re.sub(r'[\d\s\$\.\,\-]', '', line)`:
-- digits, whitespace, dollar 36, period 46, comma 44, hyphen 45
def isPriceCharC (c : Char) : Bool :=
  isDigitC c || isWsC c ||
    decide (c.toNat = 36 ∨ c.toNat = 46 ∨ c.toNat = 44 ∨ c.toNat = 45)

def toLowerC (c : Char) : Char :=
  if 65 ≤ c.toNat ∧ c.toNat ≤ 90 then Char.ofNat (c.toNat + 32) else c

def toUpperC (c : Char) : Char :=
  if 97 ≤ c.toNat ∧ c.toNat ≤ 122 then Char.ofNat (c.toNat - 32) else c

/-! ### String primitives (`str.strip`, `str.lower`, `str.split`, ...) -/

def toLowerS (l : Str) : Str := l.map toLowerC

def toUpperS (l : Str) : Str := l.map toUpperC

-- Python `str.strip()`
def stripWs (l : Str) : Str :=
  ((l.dropWhile isWsC).reverse.dropWhile isWsC).reverse

-- Python `re.sub(r'\s+', ' ', s)` : collapse every whitespace run to one space
mutual

def collapseWs : Str → Str
  | [] => []
  | c :: t => if isWsC c then ' ' :: collapseWsRun t else c :: collapseWs t

def collapseWsRun : Str → Str
  | [] => []
  | c :: t => if isWsC c then collapseWsRun t else c :: collapseWs t

end

-- Python `str.split()` : split on whitespace runs, dropping empty pieces;
-- `acc` is the current word accumulated in reverse
def splitWsA : Str → Str → List Str
  | [], acc => if acc = [] then [] else [acc.reverse]
  | c :: t, acc =>
    if isWsC c then
      if acc = [] then splitWsA t [] else acc.reverse :: splitWsA t []
    else splitWsA t (c :: acc)

def splitWs (l : Str) : List Str := splitWsA l []

-- Python `' '.join(words)`
def joinSpace : List Str → Str
  | [] => []
  | [w] => w
  | w :: ws => w ++ ' ' :: joinSpace ws

-- Python `sub in s` (and the literal reading of `pandas .str.contains`)
def isSubstr (p l : Str) : Bool :=
  p.isPrefixOf l ||
    match l with
    | [] => false
    | _ :: t => isSubstr p t

-- Python `menu_text.split('\n')` (keeps empty pieces)
def splitNl : Str → List Str
  | [] => [[]]
  | c :: t =>
    if c.toNat = 10 then [] :: splitNl t
    else
      match splitNl t with
      | [] => [[c]]
      | w :: ws => (c :: w) :: ws

/-! ### A small regular-expression evaluator

`rems r l` is the list of all suffixes of `l` left over after `r` matched a
prefix of `l`; `re.match(p, s)` is truthy iff `rems p s` is nonempty, and a
`$`-anchored pattern consumes the whole string iff `[] ∈ rems ...`.  Stars
are only ever applied to single-character classes in the source patterns, so a
class-star constructor suffices; greedy vs. lazy matching does not change the
set of remainders. -/

inductive RE where
  | eps : RE
  | lit : Str → RE
  | cls : (Char → Bool) → RE
  | seqR : RE → RE → RE
  | alt : RE → RE → RE
  | optR : RE → RE
  | starC : (Char → Bool) → RE
  | eos : RE

def starRems (p : Char → Bool) : Str → List Str
  | [] => [[]]
  | c :: t => (c :: t) :: (if p c then starRems p t else [])

def rems : RE → Str → List Str
  | .eps, l => [l]
  | .lit s, l => if s.isPrefixOf l then [l.drop s.length] else []
  | .cls p, l =>
    match l with
    | [] => []
    | c :: t => if p c then [t] else []
  | .seqR a b, l => (rems a l).flatMap (rems b)
  | .alt a b, l => rems a l ++ rems b l
  | .optR a, l => l :: rems a l
  | .starC p, l => starRems p l
  | .eos, l => if l = [] then [[]] else []

-- `re.match(p, s)` truthiness: some prefix of `s` matches `p`
def reMatch (r : RE) (l : Str) : Bool := !(rems r l).isEmpty

-- the whole string matches `p` (used for `$`-anchored `re.sub` patterns)
def reFull (r : RE) (l : Str) : Bool := (rems r l).any List.isEmpty

/-! ### The source's price patterns -/

-- `\d+\.?\d*`
def reNum : RE :=
  .seqR (.cls isDigitC) (.seqR (.starC isDigitC)
    (.seqR (.optR (.lit (strL "."))) (.starC isDigitC)))

-- `\s*`
def reWsStar : RE := .starC isWsC

-- `\s+`
def reWsPlus : RE := .seqR (.cls isWsC) (.starC isWsC)

-- `\$?`
def reOptDollar : RE := .optR (.lit (strL "$"))

-- `^\$?\d+\.?\d*\s*$`
def rePrice1 : RE := .seqR reOptDollar (.seqR reNum (.seqR reWsStar .eos))

-- `^\d+\.?\d*\s*\$`
def rePrice2 : RE := .seqR reNum (.seqR reWsStar (.lit (strL "$")))

-- `^\$?\d+\.?\d*\s*-\s*\$?\d+\.?\d*`
def rePrice3 : RE :=
  .seqR reOptDollar (.seqR reNum (.seqR reWsStar (.seqR (.lit (strL "-"))
    (.seqR reWsStar (.seqR reOptDollar reNum)))))

-- `usd|eur|gbp|rs|rupees?`
def reCurrencyWord : RE :=
  .alt (.lit (strL "usd")) (.alt (.lit (strL "eur")) (.alt (.lit (strL "gbp"))
    (.alt (.lit (strL "rs")) (.seqR (.lit (strL "rupee")) (.optR (.lit (strL "s")))))))

-- `^\d+\.?\d*\s*(usd|eur|gbp|rs|rupees?)`
def rePrice4 : RE := .seqR reNum (.seqR reWsStar reCurrencyWord)

-- `^price`
def rePrice5 : RE := .lit (strL "price")

-- `^\d+\.?\d*\s*each`
def rePrice6 : RE := .seqR reNum (.seqR reWsStar (.lit (strL "each")))

-- `^\d+\.?\d*\s*per`
def rePrice7 : RE := .seqR reNum (.seqR reWsStar (.lit (strL "per")))

def pricePatterns : List RE :=
  [rePrice1, rePrice2, rePrice3, rePrice4, rePrice5, rePrice6, rePrice7]

-- `^\d+[\.\)]\s*$`
def reNumbering : RE :=
  .seqR (.cls isDigitC) (.seqR (.starC isDigitC)
    (.seqR (.cls (fun c => decide (c.toNat = 46 ∨ c.toNat = 41))) (.seqR reWsStar .eos)))

/-! ### `is_price_line` and `is_dish_name` -/

def is_price_line (line : Str) : Bool :=
  let lineLower := stripWs (toLowerS line)
  if pricePatterns.any (fun r => reMatch r lineLower) then true
  else if 0 < line.length ∧
      mkRat ((line.filter (fun c => !isPriceCharC c)).length) line.length < mkRat 3 10 then
    true
  else false

def skipKeywords : List Str :=
  [strL "menu", strL "drink", strL "beverage", strL "wine", strL "beer",
   strL "cocktail", strL "coffee", strL "tea", strL "juice", strL "allergen",
   strL "contains", strL "gluten", strL "vegan", strL "vegetarian",
   strL "page", strL "copyright", strL "tel", strL "phone", strL "email",
   strL "website", strL "www", strL "hours", strL "open", strL "closed",
   strL "monday", strL "tuesday", strL "wednesday", strL "thursday",
   strL "friday", strL "saturday", strL "sunday", strL "am", strL "pm"]

def is_dish_name (line : Str) : Bool :=
  let lineClean := stripWs line
  if lineClean.length < 2 ∨ 80 < lineClean.length then false
  else if is_price_line lineClean then false
  else if reMatch reNumbering lineClean then false
  else
    let lineLower := toLowerS lineClean
    -- the source's nested keyword-skip block, flattened: it returns False only
    -- when all three nested conditions hold (which is in fact impossible, see
    -- the C2 theorems)
    if (skipKeywords.any (fun k => isSubstr k lineLower)) ∧
        (¬ skipKeywords.any (fun k => k == lineLower)) ∧ lineLower ∈ skipKeywords then
      false
    else if !lineClean.any isAlphaC then false
    else if mkRat ((lineClean.filter (fun c => !(isWordC c || isWsC c))).length)
        lineClean.length > mkRat 1 2 then false
    else true

/-! ### `normalize_dish_name` -/

def lowercaseWords : List Str :=
  [strL "and", strL "or", strL "the", strL "a", strL "an", strL "of", strL "in",
   strL "on", strL "at", strL "to", strL "for", strL "with", strL "by", strL "from"]

def uppercaseWords : List Str :=
  [strL "USA", strL "UK", strL "NYC", strL "BBQ", strL "AI", strL "CEO"]

-- Python `str.capitalize()`: first character upper-cased, the rest lower-cased
def capitalizeW : Str → Str
  | [] => []
  | c :: t => toUpperC c :: t.map toLowerC

-- per-word casing; `first` tells whether this is word index 0
def caseWord (first : Bool) (w : Str) : Str :=
  let wordLower := toLowerS w
  if wordLower ∈ uppercaseWords then toUpperS w
  else if first ∨ wordLower ∉ lowercaseWords then capitalizeW w
  else wordLower

def caseWords : List Str → List Str
  | [] => []
  | w :: ws => caseWord true w :: ws.map (caseWord false)

def normalize_dish_name (s : Str) : Str :=
  if s = [] then []
  else
    let n1 := stripWs s
    let n2 := collapseWs n1
    let n3 := n2.filter isKeepC
    let n4 := collapseWs n3
    let ws := splitWs n4
    if ws = [] then [] else stripWs (joinSpace (caseWords ws))

/-! ### The price-stripping `re.sub` steps of `extract_dishes_from_menu` -/

-- `re.sub(r'^\d+[\.\)]\s*', '', line)`
def stripLeadNumbering (l : Str) : Str :=
  let d := l.takeWhile isDigitC
  if d = [] then l
  else
    match l.drop d.length with
    | c :: t => if c.toNat = 46 ∨ c.toNat = 41 then t.dropWhile isWsC else l
    | [] => l

-- `re.sub(p + r'$', '', l)` for a pattern that cannot match the empty string:
-- remove the longest suffix fully matching `r` (= the leftmost match of the
-- `$`-anchored pattern)
def subSuffix (r : RE) : Str → Str
  | [] => []
  | c :: t => if reFull r (c :: t) then [] else c :: subSuffix r t

-- same, for a pattern compiled with `re.IGNORECASE`
def subSuffixCI (r : RE) : Str → Str
  | [] => []
  | c :: t => if reFull r (toLowerS (c :: t)) then [] else c :: subSuffixCI r t

-- core of `\s*\$?\d+\.?\d*\s*$`
def reTailPrice : RE := .seqR reWsStar (.seqR reOptDollar (.seqR reNum reWsStar))

-- core of `\s*-\s*\$?\d+\.?\d*\s*$`
def reTailDashPrice : RE :=
  .seqR reWsStar (.seqR (.lit (strL "-"))
    (.seqR reWsStar (.seqR reOptDollar (.seqR reNum reWsStar))))

-- core of `\s*[\(\[].*?\d+\.?\d*.*?[\)\]]\s*$` (`.` is any char except newline)
def reTailBracket : RE :=
  .seqR reWsStar (.seqR (.cls (fun c => decide (c.toNat = 40 ∨ c.toNat = 91)))
    (.seqR (.starC (fun c => decide (c.toNat ≠ 10)))
      (.seqR reNum (.seqR (.starC (fun c => decide (c.toNat ≠ 10)))
        (.seqR (.cls (fun c => decide (c.toNat = 41 ∨ c.toNat = 93))) reWsStar)))))

-- core of `\s+\d+\.?\d*\s*(usd|eur|gbp|rs|rupees?|each|per)\s*$`, IGNORECASE
def reTailCurrency : RE :=
  .seqR reWsPlus (.seqR reNum (.seqR reWsStar
    (.seqR (.alt reCurrencyWord (.alt (.lit (strL "each")) (.lit (strL "per")))) reWsStar)))

-- length of the greedy match of `\s+\$\d+\.?\d*\s*` at the start of `l`
-- (greedy matching is deterministic for this pattern)
def dollarRunLen (l : Str) : Option Nat :=
  let a := (l.takeWhile isWsC).length
  if a = 0 then none
  else
    match l.drop a with
    | c :: t1 =>
      if c.toNat = 36 then
        let b := (t1.takeWhile isDigitC).length
        if b = 0 then none
        else
          let t2 := t1.drop b
          let frac :=
            match t2 with
            | p :: t3 => if p.toNat = 46 then 1 + (t3.takeWhile isDigitC).length else 0
            | [] => 0
          let t4 := t2.drop frac
          some (a + 1 + b + frac + (t4.takeWhile isWsC).length)
      else none
    | [] => none

-- `re.sub(r'\s+\$\d+\.?\d*\s*', ' ', l)`: replace each occurrence with a
-- single space; fuel-driven recursion (each step consumes at least one
-- character, so `l.length` fuel always suffices)
def subDollarMidF : Nat → Str → Str
  | 0, l => l
  | _ + 1, [] => []
  | f + 1, c :: t =>
    match dollarRunLen (c :: t) with
    | some k => ' ' :: subDollarMidF f (t.drop (k - 1))
    | none => c :: subDollarMidF f t

def subDollarMid (l : Str) : Str := subDollarMidF l.length l

-- lines 397-413 of main.py: numbering and price fragments stripped in order
def cleanDishLine (l : Str) : Str :=
  stripWs (subSuffixCI reTailCurrency (subDollarMid (subSuffix reTailBracket
    (subSuffix reTailDashPrice (subSuffix reTailPrice (stripLeadNumbering l))))))

/-! ### `extract_dishes_from_menu` -/

inductive Cat where
  | appetizer : Cat
  | mains : Cat
  | desserts : Cat
deriving DecidableEq

structure CatDishes where
  appetizer : List Str
  mains : List Str
  desserts : List Str
deriving DecidableEq

def getCat : Cat → CatDishes → List Str
  | .appetizer, cd => cd.appetizer
  | .mains, cd => cd.mains
  | .desserts, cd => cd.desserts

-- `if normalized_name not in categorized_dishes[cat]: ... append(...)`
def addDish (c : Cat) (d : Str) (cd : CatDishes) : CatDishes :=
  match c with
  | .appetizer =>
    if d ∈ cd.appetizer then cd else { cd with appetizer := cd.appetizer ++ [d] }
  | .mains =>
    if d ∈ cd.mains then cd else { cd with mains := cd.mains ++ [d] }
  | .desserts =>
    if d ∈ cd.desserts then cd else { cd with desserts := cd.desserts ++ [d] }

def appetizerSynonyms : List Str :=
  [strL "appetizer", strL "appetiser", strL "appetizers", strL "appetisers",
   strL "starter", strL "starters", strL "small plates", strL "small plate",
   strL "tapas", strL "hors d'oeuvres", strL "hors d'oeuvre", strL "hors d oeuvres",
   strL "beginning", strL "beginnings", strL "first course", strL "first courses"]

def mainsSynonyms : List Str :=
  [strL "main", strL "mains", strL "main course", strL "main courses",
   strL "entree", strL "entrees", strL "big plates", strL "big plate",
   strL "large plates", strL "large plate", strL "mains course", strL "main dish",
   strL "main dishes", strL "second course", strL "second courses"]

def dessertSynonyms : List Str :=
  [strL "dessert", strL "desserts", strL "sweet", strL "sweets",
   strL "pudding", strL "puddings", strL "finale", strL "finales",
   strL "sweet course", strL "sweet courses", strL "after dinner"]

def dessertKeywords : List Str :=
  [strL "cake", strL "pie", strL "ice cream", strL "pudding", strL "chocolate",
   strL "cookie", strL "brownie", strL "tart", strL "mousse", strL "custard",
   strL "flan", strL "sorbet", strL "cheesecake", strL "tiramisu", strL "gelato",
   strL "sundae", strL "parfait", strL "creme brulee", strL "creme brûlée",
   strL "baklava", strL "cannoli"]

def appetizerKeywords : List Str :=
  [strL "salad", strL "soup", strL "dip", strL "bruschetta", strL "samosa",
   strL "spring roll", strL "wings", strL "nachos", strL "quesadilla",
   strL "hummus", strL "guacamole", strL "appetizer", strL "starter",
   strL "tapas", strL "antipasto", strL "mezze", strL "crostini",
   strL "canape", strL "canapé"]

-- category inference for a dish seen with no active section header
def inferCat (normalizedName : Str) : Cat :=
  let dishLower := toLowerS normalizedName
  if dessertKeywords.any (fun k => isSubstr k dishLower) then .desserts
  else if appetizerKeywords.any (fun k => isSubstr k dishLower) then .appetizer
  else .mains

-- the body of the `for line in lines` loop
def processLine (st : Option Cat × CatDishes) (line : Str) : Option Cat × CatDishes :=
  let lineOriginal := stripWs line
  if lineOriginal = [] then st
  else
    let lineLower := toLowerS lineOriginal
    if appetizerSynonyms.any (fun s => isSubstr s lineLower) then (some .appetizer, st.2)
    else if mainsSynonyms.any (fun s => isSubstr s lineLower) then (some .mains, st.2)
    else if dessertSynonyms.any (fun s => isSubstr s lineLower) then (some .desserts, st.2)
    else if !is_dish_name lineOriginal then st
    else
      let lineClean := cleanDishLine lineOriginal
      if lineClean.length < 2 then st
      else
        let normalizedName := normalize_dish_name lineClean
        if normalizedName = [] ∨ normalizedName.length < 2 then st
        else if is_price_line normalizedName then st
        else
          match st.1 with
          | some c => (st.1, addDish c normalizedName st.2)
          | none => (none, addDish (inferCat normalizedName) normalizedName st.2)

-- the loop, before the final dedup/cap pass
def extractRaw (menu : Str) : CatDishes :=
  ((splitNl menu).foldl processLine (none, ⟨[], [], []⟩)).2

-- last pass: deduplicate case-insensitively (first casing wins), keeping order
def dedupLowGo (seen : List Str) : List Str → List Str
  | [] => []
  | d :: t =>
    if toLowerS d ∈ seen then dedupLowGo seen t
    else d :: dedupLowGo (toLowerS d :: seen) t

def postPass (l : List Str) : List Str := (dedupLowGo [] l).take 20

def extract_dishes_from_menu (menu : Str) : CatDishes :=
  let cd := extractRaw menu
  ⟨postPass cd.appetizer, postPass cd.mains, postPass cd.desserts⟩

/-! ### The recipe dataset and `find_recipe_by_name` -/

structure FlavorR where
  spicy : ℝ
  sweet : ℝ
  umami : ℝ
  sour : ℝ
  salty : ℝ

structure Recipe where
  id : ℤ
  name : Str
  ingredients : List Str
  flavor_profile : FlavorR

-- the word-overlap score of tier 3: dataset and query names are split on
-- whitespace and treated as sets (`set(...)` in the source ⇒ deduplicated)
def wordScore (queryWords : List Str) (r : Recipe) : ℚ :=
  let recipeWords := (splitWs (toLowerS r.name)).dedup
  let common := queryWords.filter (fun w => w ∈ recipeWords)
  (common.length : ℚ) / (max queryWords.length recipeWords.length : ℚ)

-- one step of the tier-3 loop: the row is considered only when the word
-- intersection is nonempty, and the best score (starting at 0) improves strictly
def tier3Step (queryWords : List Str) (acc : ℚ × Option Recipe) (r : Recipe) :
    ℚ × Option Recipe :=
  let recipeWords := (splitWs (toLowerS r.name)).dedup
  let common := queryWords.filter (fun w => w ∈ recipeWords)
  if common ≠ [] then
    let score : ℚ := (common.length : ℚ) / (max queryWords.length recipeWords.length : ℚ)
    if score > acc.1 then (score, some r) else acc
  else acc

def tier3Fold (queryWords : List Str) (df : List Recipe) : ℚ × Option Recipe :=
  df.foldl (tier3Step queryWords) ((0 : ℚ), none)

/-! #### Tier 2: pandas `str.contains`

`partial_match = df[df['name'].str.lower().str.contains(name_lower, na=False)]`
keeps the pandas default `regex=True`: the query is compiled as a regular
expression and matched with `re.search`, and an invalid pattern raises
`re.error` out of `find_recipe_by_name`.  `parseRE` compiles a pattern over
the fragment of Python regex syntax that covers the dish-name alphabet
(`normalize_dish_name` keeps word characters, whitespace and `-'&,()`):
literal characters, `.` (any character but a newline), `\` followed by a
non-alphanumeric character (that literal), grouping parentheses, alternation
`|`, and the quantifiers `*`/`+`/`?` (each with an optional lazy `?`, which
matches the same language) on single-character atoms.  `none` models
`re.error` — unbalanced parentheses or brackets, a dangling quantifier, a
trailing backslash; constructs that are valid but outside the fragment
(`\`-classes such as `\d`, `{m,n}` counts, `^`/`$` anchors, quantified
groups, `(?...)` extensions) are conservatively mapped to `none` as well. -/

-- the characters that Python regex syntax treats specially:
-- . 46, ^ 94, dollar 36, * 42, + 43, ? 63, braces 123/125, brackets 91/93,
-- backslash 92, bar 124, parentheses 40/41
def isMetaC (c : Char) : Bool :=
  decide (c.toNat = 46 ∨ c.toNat = 94 ∨ c.toNat = 36 ∨ c.toNat = 42 ∨
    c.toNat = 43 ∨ c.toNat = 63 ∨ c.toNat = 123 ∨ c.toNat = 125 ∨
    c.toNat = 91 ∨ c.toNat = 93 ∨ c.toNat = 92 ∨ c.toNat = 124 ∨
    c.toNat = 40 ∨ c.toNat = 41)

-- `.` matches any character except a newline
def anyNoNl : Char → Bool := fun ch => decide (ch.toNat ≠ 10)

-- after `*`, `+` or `?`, one extra `?` selects the lazy variant
def lazyDrop : Str → Str
  | [] => []
  | c :: t => if c.toNat == 63 then t else c :: t

-- the three entry points of the recursive-descent pattern parser
inductive PMode where
  | altM : PMode
  | catM : PMode
  | atomM : PMode

-- `altM`: a concatenation, then optionally `|` and another alternation;
-- `catM`: a sequence of (possibly quantified) pieces, stopping at `|`, `)`
-- or the end; `atomM`: one atom, returning also the single-character class
-- when the atom is quantifiable in the fragment.  The fuel only bounds the
-- recursion depth; `pyCompile` passes enough for the whole pattern.
def parseRE : Nat → PMode → Str → Option (RE × Option (Char → Bool) × Str)
  | 0, _, _ => none
  | f + 1, .altM, l =>
    match parseRE f .catM l with
    | none => none
    | some (r, _, rest) =>
      match rest with
      | [] => some (r, none, [])
      | c :: t =>
        if c.toNat == 124 then
          match parseRE f .altM t with
          | none => none
          | some (r2, _, rest2) => some (.alt r r2, none, rest2)
        else some (r, none, c :: t)
  | f + 1, .catM, l =>
    match l with
    | [] => some (.eps, none, [])
    | c :: t =>
      if c.toNat == 124 || c.toNat == 41 then some (.eps, none, c :: t)
      else
        match parseRE f .atomM (c :: t) with
        | none => none
        | some (r, pc, rest) =>
          match rest with
          | [] => some (.seqR r .eps, none, [])
          | d :: t2 =>
            if d.toNat == 42 || d.toNat == 43 || d.toNat == 63 then
              match pc with
              | none => none
              | some p =>
                match parseRE f .catM (lazyDrop t2) with
                | none => none
                | some (r2, _, rest3) =>
                  some (.seqR (if d.toNat == 42 then .starC p
                    else if d.toNat == 43 then .seqR (.cls p) (.starC p)
                    else .optR (.cls p)) r2, none, rest3)
            else
              match parseRE f .catM (d :: t2) with
              | none => none
              | some (r2, _, rest3) => some (.seqR r r2, none, rest3)
  | f + 1, .atomM, l =>
    match l with
    | [] => none
    | c :: t =>
      if c.toNat == 40 then
        match t with
        | [] => none
        | d :: _ =>
          if d.toNat == 63 then none
          else
            match parseRE f .altM t with
            | none => none
            | some (r, _, rest) =>
              match rest with
              | [] => none
              | e :: t2 => if e.toNat == 41 then some (r, none, t2) else none
      else if c.toNat == 46 then some (.cls anyNoNl, some anyNoNl, t)
      else if c.toNat == 92 then
        match t with
        | [] => none
        | d :: t2 =>
          if isAlphaC d || isDigitC d then none
          else some (.cls (fun ch => ch == d), some (fun ch => ch == d), t2)
      else if isMetaC c then none
      else some (.cls (fun ch => ch == c), some (fun ch => ch == c), t)

-- `re.compile(pat)`: the whole pattern must be consumed
def pyCompile (pat : Str) : Option RE :=
  match parseRE (3 * pat.length + 3) .altM pat with
  | some (r, _, []) => some r
  | _ => none

-- the suffixes of a string, longest first
def sufs : Str → List Str
  | [] => [[]]
  | c :: t => (c :: t) :: sufs t

-- `re.search(p, s)` truthiness: the pattern matches at some position
def pySearch (r : RE) (s : Str) : Bool := (sufs s).any (fun t => reMatch r t)

-- the compiled form of a metacharacter-free pattern: a chain of
-- single-character literals
def litRE : Str → RE
  | [] => .eps
  | c :: t => .seqR (.cls (fun ch => ch == c)) (litRE t)

/-- `find_recipe_by_name`.  Tier 2 is pandas `str.contains` on the
lower-cased name column, i.e. an `re.search` of the query compiled as a
regular expression; a query that is not a valid pattern raises `re.error`
out of the function, modelled by `Except.error`. -/
def find_recipe_by_name (name : Str) (df : List Recipe) :
    Except Unit (Option Recipe) :=
  let nameLower := stripWs (toLowerS name)
  match (df.filter (fun r => toLowerS r.name == nameLower)).head? with
  | some r => .ok (some r)
  | none =>
    match pyCompile nameLower with
    | none => .error ()
    | some pat =>
      match (df.filter (fun r => pySearch pat (toLowerS r.name))).head? with
      | some r => .ok (some r)
      | none =>
        let best := tier3Fold ((splitWs nameLower).dedup) df
        .ok (if best.1 > 3 / 10 then best.2 else none)

/-- Modelled from the spec: the three-tier contract of claim C4 exactly as
the claim words it, with `find?` per tier — tier 2 is case-insensitive
substring containment and no tier can raise — and an explicit maximum for
tier 3 ("the row maximizing the word-overlap score is returned only if that
maximum exceeds 0.3"); ties on the maximum go to the first row
encountered. -/
def claimFindRecipe (name : Str) (df : List Recipe) : Option Recipe :=
  let nameLower := stripWs (toLowerS name)
  let queryWords := (splitWs nameLower).dedup
  let maxScore := ((df.map (wordScore queryWords)).foldr max 0 : ℚ)
  match df.find? (fun r => toLowerS r.name == nameLower) with
  | some r => some r
  | none =>
    match df.find? (fun r => isSubstr nameLower (toLowerS r.name)) with
    | some r => some r
    | none =>
      if maxScore > 3 / 10 then df.find? (fun r => wordScore queryWords r == maxScore)
      else none

/-- Modelled from the spec (amended claim C4): the same three tiers, except
that tier 2 interprets the query as a regular expression, as pandas
`str.contains` does by default, and raises on an invalid pattern instead of
falling through to tier 3. -/
def claimFindRecipeAmended (name : Str) (df : List Recipe) :
    Except Unit (Option Recipe) :=
  let nameLower := stripWs (toLowerS name)
  let queryWords := (splitWs nameLower).dedup
  let maxScore := ((df.map (wordScore queryWords)).foldr max 0 : ℚ)
  match df.find? (fun r => toLowerS r.name == nameLower) with
  | some r => .ok (some r)
  | none =>
    match pyCompile nameLower with
    | none => .error ()
    | some pat =>
      match df.find? (fun r => pySearch pat (toLowerS r.name)) with
      | some r => .ok (some r)
      | none =>
        .ok (if maxScore > 3 / 10 then
            df.find? (fun r => wordScore queryWords r == maxScore)
          else none)

-- a one-row dataset for the tier-2 counterexample
def rAbc : Recipe := ⟨0, strL "abc", [], ⟨0, 0, 0, 0, 0⟩⟩

/-! ### `calculate_average_flavor_profile` -/

-- a flavor-profile dictionary: `p.get(k, 0)` may find the key missing
structure FlavorOpt where
  spicy : Option ℚ
  sweet : Option ℚ
  umami : Option ℚ
  sour : Option ℚ
  salty : Option ℚ
deriving DecidableEq

structure FlavorQ where
  spicy : ℚ
  sweet : ℚ
  umami : ℚ
  sour : ℚ
  salty : ℚ
deriving DecidableEq

-- Python `round(v, 2)` (v ≥ 0 in this code base; rounding of exact halves is
-- idealized as round-half-up, which only differs from float round-half-even on
-- exact ties and is irrelevant to the claims proved here)
def round2 (q : ℚ) : ℚ := (⌊q * 100 + 1 / 2⌋ : ℚ) / 100

-- `np.mean` of a list of numbers
def npMean (l : List ℚ) : ℚ := l.sum / (l.length : ℚ)

def calculate_average_flavor_profile (recipes : List FlavorOpt) : FlavorQ :=
  if recipes = [] then ⟨0, 0, 0, 0, 0⟩
  else
    ⟨round2 (npMean (recipes.map (fun p => p.spicy.getD 0))),
     round2 (npMean (recipes.map (fun p => p.sweet.getD 0))),
     round2 (npMean (recipes.map (fun p => p.umami.getD 0))),
     round2 (npMean (recipes.map (fun p => p.sour.getD 0))),
     round2 (npMean (recipes.map (fun p => p.salty.getD 0)))⟩

/-! ### `calculate_similarity` (cosine similarity over ℝ) -/

def dotF (p q : FlavorR) : ℝ :=
  p.spicy * q.spicy + p.sweet * q.sweet + p.umami * q.umami +
    p.sour * q.sour + p.salty * q.salty

noncomputable def normF (p : FlavorR) : ℝ := Real.sqrt (dotF p p)

noncomputable def calculate_similarity (p q : FlavorR) : ℝ :=
  if normF p = 0 ∨ normF q = 0 then 0
  else dotF p q / (normF p * normF q)

def NonnegF (p : FlavorR) : Prop :=
  0 ≤ p.spicy ∧ 0 ≤ p.sweet ∧ 0 ≤ p.umami ∧ 0 ≤ p.sour ∧ 0 ≤ p.salty

/-! ### The per-category ranking of `get_recommendations` -/

structure RecOut where
  id : ℤ
  name : Str
  ingredients : List Str
  flavor_profile : FlavorR
  similarity_score : ℝ
  category : Cat

-- Python `round(score, 3)` (same idealization as `round2`)
noncomputable def round3 (x : ℝ) : ℝ := (⌊x * 1000 + 1 / 2⌋ : ℝ) / 1000

-- an entry of `scored_items`: (menu_dish_name, recipe, similarity)
abbrev Scored := Str × Recipe × ℝ

noncomputable def scoreItems (up : FlavorR) (pairs : List (Str × Recipe)) : List Scored :=
  pairs.map (fun pr => (pr.1, pr.2, calculate_similarity up pr.2.flavor_profile))

-- `scored_items.sort(key=lambda x: x[2], reverse=True)`: Python's sort is
-- stable; a stable descending sort is the insertion sort that puts `a` before
-- the first earlier-sorted element whose key it reaches or exceeds
noncomputable def insertScored (a : Scored) : List Scored → List Scored
  | [] => [a]
  | b :: l => if b.2.2 ≤ a.2.2 then a :: b :: l else b :: insertScored a l

noncomputable def sortScored : List Scored → List Scored
  | [] => []
  | a :: l => insertScored a (sortScored l)

-- the per-category block of `get_recommendations` (lines 1138-1172): score,
-- stable-sort descending, take 5, and emit records carrying the original menu
-- dish name
noncomputable def rankCategory (up : FlavorR) (cat : Cat)
    (pairs : List (Str × Recipe)) : List RecOut :=
  ((sortScored (scoreItems up pairs)).take 5).map
    (fun t => ⟨t.2.1.id, t.1, t.2.1.ingredients, t.2.1.flavor_profile, round3 t.2.2, cat⟩)

/-- Modelled from the spec: the character set that claim C9 asserts for
`normalize_dish_name` output — letters, digits, whitespace, hyphen, apostrophe,
ampersand, comma, and parentheses (note: no underscore). -/
def specC9AllowedChar (c : Char) : Bool :=
  isAlphaC c || isDigitC c || isWsC c ||
    decide (c.toNat = 45 ∨ c.toNat = 39 ∨ c.toNat = 38 ∨ c.toNat = 44 ∨
      c.toNat = 40 ∨ c.toNat = 41)

-- a 22-line menu: 20 distinct mains, then one dish repeated in two casings
def capMenu : Str :=
  strL "Korma Ka\nKorma Kb\nKorma Kc\nKorma Kd\nKorma Ke\nKorma Kf\nKorma Kg\nKorma Kh\nKorma Ki\nKorma Kj\nKorma Kk\nKorma Kl\nKorma Km\nKorma Kn\nKorma Ko\nKorma Kp\nKorma Kq\nKorma Kr\nKorma Ks\nKorma Kt\nVindaloo Special\nVINDALOO SPECIAL"

/-! ## Helper lemmas: the extraction loop only ever appends guarded dishes -/

theorem addDish_getCat (c cat : Cat) (d : Str) (cd : CatDishes) :
    getCat c (addDish cat d cd) = getCat c cd ∨
      getCat c (addDish cat d cd) = getCat c cd ++ [d] := by
  cases cat <;> cases c <;> simp only [addDish, getCat] <;> split <;> simp

theorem mem_addDish {c cat : Cat} {d x : Str} {cd : CatDishes}
    (hx : x ∈ getCat c (addDish cat d cd)) : x ∈ getCat c cd ∨ x = d := by
  rcases addDish_getCat c cat d cd with h | h <;> rw [h] at hx
  · exact Or.inl hx
  · rcases List.mem_append.1 hx with h' | h'
    · exact Or.inl h'
    · exact Or.inr (List.mem_singleton.1 h')

set_option maxHeartbeats 1000000 in
theorem processLine_snd (st : Option Cat × CatDishes) (line : Str) :
    (processLine st line).2 = st.2 ∨
      ∃ cat nn, (2 ≤ nn.length ∧ is_price_line nn = false) ∧
        (processLine st line).2 = addDish cat nn st.2 := by
  obtain ⟨cur, cd⟩ := st
  simp only [processLine]
  split_ifs with h1 h2 h3 h4 h5 h6 h7 h8
  · exact Or.inl rfl
  · exact Or.inl rfl
  · exact Or.inl rfl
  · exact Or.inl rfl
  · exact Or.inl rfl
  · exact Or.inl rfl
  · exact Or.inl rfl
  · exact Or.inl rfl
  · push_neg at h7
    have h8' : is_price_line (normalize_dish_name (cleanDishLine (stripWs line))) = false := by
      simpa using h8
    generalize hg : normalize_dish_name (cleanDishLine (stripWs line)) = nn at h7 h8' ⊢
    cases cur with
    | some c => exact Or.inr ⟨c, nn, ⟨by omega, h8'⟩, rfl⟩
    | none => exact Or.inr ⟨inferCat nn, nn, ⟨by omega, h8'⟩, rfl⟩

theorem foldl_processLine_ok (P : Str → Prop)
    (hP : ∀ st line cat nn, (processLine st line).2 = addDish cat nn st.2 →
      2 ≤ nn.length → is_price_line nn = false → P nn) :
    ∀ (lines : List Str) (st : Option Cat × CatDishes),
      (∀ c, ∀ d ∈ getCat c st.2, P d) →
      ∀ c, ∀ d ∈ getCat c (lines.foldl processLine st).2, P d := by
  intro lines
  induction lines with
  | nil => intro st h; exact h
  | cons l ls ih =>
    intro st h
    refine ih _ ?_
    intro c d hd
    rcases processLine_snd st l with he | ⟨cat, nn, hok, he⟩
    · rw [he] at hd; exact h c d hd
    · rw [he] at hd
      rcases mem_addDish hd with h' | rfl
      · exact h c d h'
      · exact hP st l cat d he hok.1 hok.2

theorem extractRaw_dishOk (menu : Str) (c : Cat) :
    ∀ d ∈ getCat c (extractRaw menu), 2 ≤ d.length ∧ is_price_line d = false := by
  intro d hd
  refine foldl_processLine_ok (fun nn => 2 ≤ nn.length ∧ is_price_line nn = false)
    (fun _ _ _ _ _ h1 h2 => ⟨h1, h2⟩) (splitNl menu) (none, ⟨[], [], []⟩) ?_ c d hd
  intro c' d' hd'
  cases c' <;> simp [getCat] at hd'

/-! ## Helper lemmas: the dedup/cap post-pass -/

theorem dedupLowGo_sublist (seen l : List Str) :
    List.Sublist (dedupLowGo seen l) l := by
  induction l generalizing seen with
  | nil => simp [dedupLowGo]
  | cons d t ih =>
    simp only [dedupLowGo]
    split
    · exact (ih seen).cons d
    · exact (ih _).cons₂ d

theorem dedupLowGo_spec (l : List Str) : ∀ (seen : List Str), ∀ x ∈ dedupLowGo seen l,
    toLowerS x ∉ seen ∧ l.find? (fun y => toLowerS y == toLowerS x) = some x := by
  induction l with
  | nil => simp [dedupLowGo]
  | cons d t ih =>
    intro seen x hx
    simp only [dedupLowGo] at hx
    split at hx
    next hmem =>
      obtain ⟨hnot, hfind⟩ := ih seen x hx
      have hne : (toLowerS d == toLowerS x) = false := by
        simp only [beq_eq_false_iff_ne, ne_eq]
        exact fun h => hnot (h ▸ hmem)
      refine ⟨hnot, ?_⟩
      rw [List.find?_cons]
      simp [hne, hfind]
    next hmem =>
      rcases hx with _ | ⟨_, hx⟩
      · refine ⟨hmem, ?_⟩
        rw [List.find?_cons]
        simp
      · obtain ⟨hnot, hfind⟩ := ih _ x hx
        have hne : (toLowerS d == toLowerS x) = false := by
          simp only [beq_eq_false_iff_ne, ne_eq]
          exact fun h => hnot (by simp [h])
        refine ⟨fun hs => hnot (List.mem_cons_of_mem _ hs), ?_⟩
        rw [List.find?_cons]
        simp [hne, hfind]

theorem dedupLowGo_pairwise (l : List Str) : ∀ (seen : List Str),
    (dedupLowGo seen l).Pairwise (fun a b => toLowerS a ≠ toLowerS b) := by
  induction l with
  | nil => intro; simp [dedupLowGo]
  | cons d t ih =>
    intro seen
    simp only [dedupLowGo]
    split
    · exact ih seen
    · refine List.Pairwise.cons ?_ (ih _)
      intro b hb h
      exact (dedupLowGo_spec t _ b hb).1 (by simp [h])

theorem dedupLowGo_covers (l : List Str) : ∀ (seen : List Str), ∀ x ∈ l,
    toLowerS x ∈ seen ∨ ∃ y ∈ dedupLowGo seen l, toLowerS y = toLowerS x := by
  induction l with
  | nil => simp
  | cons d t ih =>
    intro seen x hx
    simp only [dedupLowGo]
    rcases List.mem_cons.1 hx with rfl | hx'
    · by_cases hd : toLowerS x ∈ seen
      · exact Or.inl hd
      · rw [if_neg hd]
        exact Or.inr ⟨x, List.mem_cons_self x _, rfl⟩
    · by_cases hd : toLowerS d ∈ seen
      · rw [if_pos hd]
        exact ih seen x hx'
      · rw [if_neg hd]
        rcases ih (toLowerS d :: seen) x hx' with hin | ⟨y, hy, hyx⟩
        · rcases List.mem_cons.1 hin with heq | hin'
          · exact Or.inr ⟨d, List.mem_cons_self d _, heq.symm⟩
          · exact Or.inl hin'
        · exact Or.inr ⟨y, List.mem_cons_of_mem d hy, hyx⟩

theorem pairwise_lowNe_unique : ∀ (l : List Str),
    l.Pairwise (fun a b => toLowerS a ≠ toLowerS b) →
    ∀ y z : Str, y ∈ l → z ∈ l → toLowerS y = toLowerS z → y = z := by
  intro l
  induction l with
  | nil => intro _ y z hy _ _; exact absurd hy (List.not_mem_nil y)
  | cons a t ih =>
    intro h y z hy hz he
    obtain ⟨ha, ht⟩ := List.pairwise_cons.1 h
    rcases List.mem_cons.1 hy with rfl | hy'
    · rcases List.mem_cons.1 hz with rfl | hz'
      · rfl
      · exact absurd he (ha z hz')
    · rcases List.mem_cons.1 hz with rfl | hz'
      · exact absurd he.symm (ha y hy')
      · exact ih ht y z hy' hz' he

theorem countP_lowNe_le_one : ∀ (l : List Str) (w : Str),
    l.Pairwise (fun a b => toLowerS a ≠ toLowerS b) →
    l.countP (fun z => toLowerS z == w) ≤ 1 := by
  intro l
  induction l with
  | nil => intro w _; simp
  | cons a t ih =>
    intro w h
    obtain ⟨ha, ht⟩ := List.pairwise_cons.1 h
    rw [List.countP_cons]
    by_cases hw : toLowerS a = w
    · have h0 : t.countP (fun z => toLowerS z == w) = 0 := by
        rw [List.countP_eq_zero]
        intro z hz
        simp only [beq_iff_eq]
        intro hzw
        exact ha z hz (by rw [hw, ← hzw])
      have h1 : ((fun z => toLowerS z == w) a) = true := by simp [hw]
      simp [h0, h1]
    · have h1 : ((fun z => toLowerS z == w) a) = false := by simp [hw]
      simp only [h1, Bool.false_eq_true, if_false, Nat.add_zero]
      exact ih w ht

theorem postPass_sublist (l : List Str) : List.Sublist (postPass l) l :=
  (List.take_sublist _ _).trans (dedupLowGo_sublist [] l)

theorem getCat_extract (menu : Str) (c : Cat) :
    getCat c (extract_dishes_from_menu menu) = postPass (getCat c (extractRaw menu)) := by
  cases c <;> rfl

/-! ## Helper lemmas: the recipe matcher -/

theorem head?_filter_eq_find? {α : Type} (p : α → Bool) (l : List α) :
    (l.filter p).head? = l.find? p := by
  induction l with
  | nil => rfl
  | cons a t ih => by_cases h : p a <;> simp [List.filter_cons, List.find?_cons, h, ih]

theorem wordScore_nonneg (qws : List Str) (r : Recipe) : 0 ≤ wordScore qws r := by
  unfold wordScore
  exact div_nonneg (by positivity) (by positivity)

theorem maxScores_nonneg (qws : List Str) (df : List Recipe) :
    0 ≤ (df.map (wordScore qws)).foldr max 0 := by
  induction df with
  | nil => simp
  | cons r t ih =>
    simp only [List.map_cons, List.foldr_cons]
    exact le_trans ih (le_max_right _ _)

theorem tier3Step_eq (qws : List Str) (acc : ℚ × Option Recipe) (r : Recipe)
    (hb : 0 ≤ acc.1) :
    tier3Step qws acc r
      = if wordScore qws r > acc.1 then (wordScore qws r, some r) else acc := by
  unfold tier3Step wordScore
  by_cases h : qws.filter (fun w => w ∈ (splitWs (toLowerS r.name)).dedup) = []
  · simp only [h, ne_eq, not_true_eq_false, if_false, List.length_nil, Nat.cast_zero,
      zero_div, if_neg (not_lt.2 hb)]
  · simp only [ne_eq, h, not_false_eq_true, if_true]

theorem foldl_tier3Step_spec (qws : List Str) :
    ∀ (df : List Recipe) (b : ℚ) (o : Option Recipe), 0 ≤ b →
      (df.foldl (tier3Step qws) (b, o)).1
          = max b ((df.map (wordScore qws)).foldr max 0) ∧
        ((df.foldl (tier3Step qws) (b, o)).1 = b → (df.foldl (tier3Step qws) (b, o)).2 = o) ∧
        (b < (df.foldl (tier3Step qws) (b, o)).1 →
          (df.foldl (tier3Step qws) (b, o)).2
            = df.find? (fun r => wordScore qws r == (df.foldl (tier3Step qws) (b, o)).1)) := by
  intro df
  induction df with
  | nil =>
    intro b o hb
    exact ⟨by simp [max_eq_left hb], fun _ => rfl,
      fun h => absurd h (by simp [max_eq_left hb])⟩
  | cons r t ih =>
    intro b o hb
    have hstep := tier3Step_eq qws (b, o) r hb
    simp only [List.foldl_cons, List.map_cons, List.foldr_cons, hstep]
    by_cases hs : wordScore qws r > b
    · rw [if_pos hs]
      obtain ⟨ih1, ih2, ih3⟩ := ih (wordScore qws r) (some r) (wordScore_nonneg qws r)
      have hgoal1 : (t.foldl (tier3Step qws) (wordScore qws r, some r)).1
          = max b (max (wordScore qws r) ((t.map (wordScore qws)).foldr max 0)) := by
        rw [ih1]
        exact (max_eq_right (le_of_lt (lt_of_lt_of_le hs (le_max_left _ _)))).symm
      have hbig : b < (t.foldl (tier3Step qws) (wordScore qws r, some r)).1 := by
        rw [ih1]
        exact lt_of_lt_of_le hs (le_max_left _ _)
      refine ⟨hgoal1, fun h => absurd h.symm (ne_of_lt hbig), fun _ => ?_⟩
      rw [List.find?_cons]
      rcases eq_or_lt_of_le (le_max_left (wordScore qws r)
          ((t.map (wordScore qws)).foldr max 0)) with he | hlt
      · have h1 : (t.foldl (tier3Step qws) (wordScore qws r, some r)).1 = wordScore qws r := by
          rw [ih1, ← he]
        rw [h1]
        simp [ih2 h1]
      · have hlt' : wordScore qws r < (t.foldl (tier3Step qws) (wordScore qws r, some r)).1 := by
          rw [ih1]; exact hlt
        have hne : (wordScore qws r == (t.foldl (tier3Step qws)
            (wordScore qws r, some r)).1) = false := by
          simp [ne_of_lt hlt']
        rw [hne]
        exact ih3 hlt'
    · rw [if_neg hs]
      push_neg at hs
      obtain ⟨ih1, ih2, ih3⟩ := ih b o hb
      have hgoal1 : (t.foldl (tier3Step qws) (b, o)).1
          = max b (max (wordScore qws r) ((t.map (wordScore qws)).foldr max 0)) := by
        rw [ih1, ← max_assoc, max_eq_left hs]
      refine ⟨hgoal1, ih2, fun hlt => ?_⟩
      rw [List.find?_cons]
      have hne : (wordScore qws r == (t.foldl (tier3Step qws) (b, o)).1) = false := by
        simp [ne_of_lt (lt_of_le_of_lt hs hlt)]
      rw [hne]
      exact ih3 hlt

theorem parseRE_atomM_lit (f : Nat) (c : Char) (t : Str) (hc : isMetaC c = false)
    (hf : 0 < f) :
    parseRE f .atomM (c :: t)
      = some (.cls (fun ch => ch == c), some (fun ch => ch == c), t) := by
  have hc' := hc
  simp only [isMetaC, decide_eq_false_iff_not] at hc'
  push_neg at hc'
  obtain ⟨h46, h94, h36, h42, h43, h63, h123, h125, h91, h93, h92, h124, h40, h41⟩ := hc'
  have b40 : (c.toNat == 40) = false := beq_eq_false_iff_ne.2 h40
  have b46 : (c.toNat == 46) = false := beq_eq_false_iff_ne.2 h46
  have b92 : (c.toNat == 92) = false := beq_eq_false_iff_ne.2 h92
  cases f with
  | zero => exact absurd hf (lt_irrefl 0)
  | succ f' =>
    simp only [parseRE, b40, b46, b92, hc, Bool.false_eq_true, if_false]

theorem parseRE_lit : ∀ (q : Str) (f : Nat), (q.all (fun c => !isMetaC c)) = true →
    q.length < f → parseRE f .catM q = some (litRE q, none, []) := by
  intro q
  induction q with
  | nil =>
    intro f _ hf
    cases f with
    | zero => exact absurd hf (Nat.not_lt_zero _)
    | succ f' => rfl
  | cons c t ih =>
    intro f hq hf
    simp only [List.all_cons, Bool.and_eq_true, Bool.not_eq_true'] at hq
    obtain ⟨hc, ht⟩ := hq
    have hc' := hc
    simp only [isMetaC, decide_eq_false_iff_not] at hc'
    push_neg at hc'
    obtain ⟨h46, h94, h36, h42, h43, h63, h123, h125, h91, h93, h92, h124, h40, h41⟩ := hc'
    have b124 : (c.toNat == 124) = false := beq_eq_false_iff_ne.2 h124
    have b41 : (c.toNat == 41) = false := beq_eq_false_iff_ne.2 h41
    cases f with
    | zero => exact absurd hf (Nat.not_lt_zero _)
    | succ f' =>
      have hf' : t.length < f' := by
        simp only [List.length_cons] at hf
        omega
      have hatom := parseRE_atomM_lit f' c t hc (by omega)
      cases t with
      | nil =>
        simp only [parseRE, b124, b41, Bool.or_self, Bool.false_eq_true, if_false,
          hatom, litRE]
      | cons d t2 =>
        have hd : isMetaC d = false := by
          simp only [List.all_cons, Bool.and_eq_true, Bool.not_eq_true'] at ht
          exact ht.1
        have hd' := hd
        simp only [isMetaC, decide_eq_false_iff_not] at hd'
        push_neg at hd'
        obtain ⟨_, _, _, d42, d43, d63, _, _, _, _, _, _, _, _⟩ := hd'
        have bd42 : (d.toNat == 42) = false := beq_eq_false_iff_ne.2 d42
        have bd43 : (d.toNat == 43) = false := beq_eq_false_iff_ne.2 d43
        have bd63 : (d.toNat == 63) = false := beq_eq_false_iff_ne.2 d63
        have hcat := ih f' ht hf'
        simp only [parseRE, b124, b41, bd42, bd43, bd63, Bool.or_self,
          Bool.false_eq_true, if_false, hatom, hcat, litRE]

theorem parseRE_alt_of_cat {q : Str} {r : RE} {m : Nat}
    (h : parseRE m .catM q = some (r, none, [])) :
    parseRE (m + 1) .altM q = some (r, none, []) := by
  simp only [parseRE, h]

theorem pyCompile_lit (q : Str) (hq : (q.all (fun c => !isMetaC c)) = true) :
    pyCompile q = some (litRE q) := by
  have h1 : parseRE (3 * q.length + 2) .catM q = some (litRE q, none, []) :=
    parseRE_lit q _ hq (by omega)
  have h2 := parseRE_alt_of_cat h1
  unfold pyCompile
  rw [show (3 : Nat) * q.length + 3 = 3 * q.length + 2 + 1 by omega, h2]

theorem reMatch_lit : ∀ (q t : Str), reMatch (litRE q) t = q.isPrefixOf t := by
  intro q
  induction q with
  | nil => intro t; cases t <;> rfl
  | cons c q' ih =>
    intro t
    cases t with
    | nil => rfl
    | cons d t' =>
      by_cases h : d = c
      · subst h
        have hm := ih t'
        simp only [reMatch] at hm
        simp only [litRE, reMatch, rems, List.isPrefixOf, beq_self_eq_true, if_true,
          List.flatMap_cons, List.flatMap_nil, List.append_nil, Bool.true_and]
        exact hm
      · have hcd : (c == d) = false := beq_eq_false_iff_ne.2 fun he => h he.symm
        have hdc : (d == c) = false := beq_eq_false_iff_ne.2 fun he => h he
        simp [litRE, reMatch, rems, List.isPrefixOf, hcd, hdc]

theorem sufs_any_isSubstr : ∀ (q s : Str),
    ((sufs s).any (fun t => q.isPrefixOf t)) = isSubstr q s := by
  intro q s
  induction s with
  | nil => simp [sufs, isSubstr]
  | cons c s' ih =>
    simp only [sufs, List.any_cons, isSubstr, ih]

theorem pySearch_lit (q s : Str) : pySearch (litRE q) s = isSubstr q s := by
  unfold pySearch
  rw [← sufs_any_isSubstr q s]
  exact congrArg (List.any (sufs s)) (funext fun t => reMatch_lit q t)

theorem tier3_eq_max (nl : Str) (df : List Recipe) :
    (if (tier3Fold ((splitWs nl).dedup) df).1 > 3 / 10 then
        (tier3Fold ((splitWs nl).dedup) df).2 else none)
      = if ((df.map (wordScore ((splitWs nl).dedup))).foldr max 0 : ℚ) > 3 / 10 then
          df.find? (fun r => wordScore ((splitWs nl).dedup) r
            == ((df.map (wordScore ((splitWs nl).dedup))).foldr max 0 : ℚ))
        else none := by
  obtain ⟨h1', _, h3'⟩ := foldl_tier3Step_spec ((splitWs nl).dedup) df 0 none le_rfl
  have hM0 : 0 ≤ (df.map (wordScore ((splitWs nl).dedup))).foldr max 0 :=
    maxScores_nonneg _ df
  have heq : (tier3Fold ((splitWs nl).dedup) df).1
      = (df.map (wordScore ((splitWs nl).dedup))).foldr max 0 := by
    rw [tier3Fold, h1', max_eq_right hM0]
  by_cases hgt : (df.map (wordScore ((splitWs nl).dedup))).foldr max 0 > 3 / 10
  · rw [if_pos (by rw [heq]; exact hgt), if_pos hgt]
    have hpos : (0 : ℚ) < (tier3Fold ((splitWs nl).dedup) df).1 := by
      rw [heq]; linarith
    rw [tier3Fold] at hpos ⊢
    rw [h3' hpos, h1', max_eq_right hM0]
  · rw [if_neg (by rw [heq]; exact hgt), if_neg hgt]

/-! ## Helper lemmas: character casing -/

theorem charEq_of_toNat {c d : Char} (h : c.toNat = d.toNat) : c = d :=
  Char.ext (UInt32.toNat.inj h)

theorem toNat_ofNat_lower (n : Nat) (h1 : 97 ≤ n) (h2 : n ≤ 122) :
    (Char.ofNat n).toNat = n := by
  interval_cases n <;> decide

theorem toNat_ofNat_upper (n : Nat) (h1 : 65 ≤ n) (h2 : n ≤ 90) :
    (Char.ofNat n).toNat = n := by
  interval_cases n <;> decide

theorem toLowerC_eq_self {c : Char} (h : ¬(65 ≤ c.toNat ∧ c.toNat ≤ 90)) :
    toLowerC c = c := if_neg h

theorem toUpperC_eq_self {c : Char} (h : ¬(97 ≤ c.toNat ∧ c.toNat ≤ 122)) :
    toUpperC c = c := if_neg h

theorem toNat_toLowerC_upper {c : Char} (h : 65 ≤ c.toNat ∧ c.toNat ≤ 90) :
    (toLowerC c).toNat = c.toNat + 32 := by
  unfold toLowerC
  rw [if_pos h]
  exact toNat_ofNat_lower _ (by omega) (by omega)

theorem toNat_toUpperC_lower {c : Char} (h : 97 ≤ c.toNat ∧ c.toNat ≤ 122) :
    (toUpperC c).toNat = c.toNat - 32 := by
  unfold toUpperC
  rw [if_pos h]
  exact toNat_ofNat_upper _ (by omega) (by omega)

theorem toLowerC_idem (c : Char) : toLowerC (toLowerC c) = toLowerC c := by
  by_cases h : 65 ≤ c.toNat ∧ c.toNat ≤ 90
  · have ht := toNat_toLowerC_upper h
    exact toLowerC_eq_self (by omega)
  · rw [toLowerC_eq_self h, toLowerC_eq_self h]

theorem toUpperC_idem (c : Char) : toUpperC (toUpperC c) = toUpperC c := by
  by_cases h : 97 ≤ c.toNat ∧ c.toNat ≤ 122
  · have ht := toNat_toUpperC_lower h
    exact toUpperC_eq_self (by omega)
  · rw [toUpperC_eq_self h, toUpperC_eq_self h]

theorem toLowerC_toUpperC (c : Char) : toLowerC (toUpperC c) = toLowerC c := by
  by_cases h : 97 ≤ c.toNat ∧ c.toNat ≤ 122
  · have hu := toNat_toUpperC_lower h
    have hup : 65 ≤ (toUpperC c).toNat ∧ (toUpperC c).toNat ≤ 90 := by omega
    have hl := toNat_toLowerC_upper hup
    have hc : toLowerC c = c := toLowerC_eq_self (by omega)
    rw [hc]
    exact charEq_of_toNat (by omega)
  · rw [toUpperC_eq_self h]

theorem isWsC_false_of_ge {c : Char} (h : 33 ≤ c.toNat) : isWsC c = false := by
  simp only [isWsC, decide_eq_false_iff_not]
  omega

theorem isWsC_toLowerC (c : Char) : isWsC (toLowerC c) = isWsC c := by
  by_cases h : 65 ≤ c.toNat ∧ c.toNat ≤ 90
  · have ht := toNat_toLowerC_upper h
    rw [isWsC_false_of_ge (by omega : 33 ≤ (toLowerC c).toNat),
      isWsC_false_of_ge (by omega : 33 ≤ c.toNat)]
  · rw [toLowerC_eq_self h]

theorem isWsC_toUpperC (c : Char) : isWsC (toUpperC c) = isWsC c := by
  by_cases h : 97 ≤ c.toNat ∧ c.toNat ≤ 122
  · have ht := toNat_toUpperC_lower h
    rw [isWsC_false_of_ge (by omega : 33 ≤ (toUpperC c).toNat),
      isWsC_false_of_ge (by omega : 33 ≤ c.toNat)]
  · rw [toUpperC_eq_self h]

theorem isKeepC_toLowerC {c : Char} (h : isKeepC c = true) : isKeepC (toLowerC c) = true := by
  by_cases hu : 65 ≤ c.toNat ∧ c.toNat ≤ 90
  · have ht := toNat_toLowerC_upper hu
    simp only [isKeepC, isWordC, isAlphaC, isUpperC, isLowerC, isDigitC, isWsC,
      Bool.or_eq_true, decide_eq_true_eq]
    omega
  · rw [toLowerC_eq_self hu]
    exact h

theorem isKeepC_toUpperC {c : Char} (h : isKeepC c = true) : isKeepC (toUpperC c) = true := by
  by_cases hl : 97 ≤ c.toNat ∧ c.toNat ≤ 122
  · have ht := toNat_toUpperC_lower hl
    simp only [isKeepC, isWordC, isAlphaC, isUpperC, isLowerC, isDigitC, isWsC,
      Bool.or_eq_true, decide_eq_true_eq]
    omega
  · rw [toUpperC_eq_self hl]
    exact h

/-! ## Helper lemmas: word casing -/

theorem toLowerS_idem (w : Str) : toLowerS (toLowerS w) = toLowerS w := by
  simp only [toLowerS, List.map_map]
  exact List.map_congr_left (fun c _ => toLowerC_idem c)

theorem toLowerS_toUpperS (w : Str) : toLowerS (toUpperS w) = toLowerS w := by
  simp only [toLowerS, toUpperS, List.map_map]
  exact List.map_congr_left (fun c _ => toLowerC_toUpperC c)

theorem toUpperS_idem (w : Str) : toUpperS (toUpperS w) = toUpperS w := by
  simp only [toUpperS, List.map_map]
  exact List.map_congr_left (fun c _ => toUpperC_idem c)

theorem toLowerS_capitalizeW (w : Str) : toLowerS (capitalizeW w) = toLowerS w := by
  cases w with
  | nil => rfl
  | cons c t =>
    simp only [capitalizeW, toLowerS, List.map_cons, List.map_map]
    rw [toLowerC_toUpperC c]
    congr 1
    exact List.map_congr_left (fun c _ => toLowerC_idem c)

theorem capitalizeW_idem (w : Str) : capitalizeW (capitalizeW w) = capitalizeW w := by
  cases w with
  | nil => rfl
  | cons c t =>
    simp only [capitalizeW, List.map_map]
    rw [toUpperC_idem c]
    congr 1
    exact List.map_congr_left (fun c _ => toLowerC_idem c)

theorem caseWord_lower (first : Bool) (w : Str) :
    toLowerS (caseWord first w) = toLowerS w := by
  simp only [caseWord]
  split_ifs
  · exact toLowerS_toUpperS w
  · exact toLowerS_capitalizeW w
  · exact toLowerS_idem w

theorem caseWord_idem (first : Bool) (w : Str) :
    caseWord first (caseWord first w) = caseWord first w := by
  by_cases h1 : toLowerS w ∈ uppercaseWords
  · have e1 : caseWord first w = toUpperS w := by simp only [caseWord]; rw [if_pos h1]
    rw [e1]
    simp only [caseWord]
    rw [toLowerS_toUpperS w, if_pos h1]
    exact toUpperS_idem w
  · by_cases h2 : first = true ∨ toLowerS w ∉ lowercaseWords
    · have e1 : caseWord first w = capitalizeW w := by
        simp only [caseWord]; rw [if_neg h1, if_pos h2]
      rw [e1]
      simp only [caseWord]
      rw [toLowerS_capitalizeW w, if_neg h1, if_pos h2]
      exact capitalizeW_idem w
    · have e1 : caseWord first w = toLowerS w := by
        simp only [caseWord]; rw [if_neg h1, if_neg h2]
      rw [e1]
      simp only [caseWord]
      rw [toLowerS_idem w, if_neg h1, if_neg h2]

theorem caseWords_idem (ws : List Str) : caseWords (caseWords ws) = caseWords ws := by
  cases ws with
  | nil => rfl
  | cons w t =>
    simp only [caseWords, List.map_map]
    rw [caseWord_idem true w]
    congr 1
    exact List.map_congr_left (fun w' _ => caseWord_idem false w')

theorem caseWord_ne_nil (first : Bool) {w : Str} (hw : w ≠ []) :
    caseWord first w ≠ [] := by
  simp only [caseWord]
  split_ifs
  · simp [toUpperS, hw]
  · cases w with
    | nil => exact absurd rfl hw
    | cons c t => simp [capitalizeW]
  · simp [toLowerS, hw]

theorem caseWord_noWs (first : Bool) {w : Str} (hw : ∀ c ∈ w, isWsC c = false) :
    ∀ c ∈ caseWord first w, isWsC c = false := by
  simp only [caseWord]
  split_ifs
  · intro c hc
    simp only [toUpperS, List.mem_map] at hc
    obtain ⟨d, hd, rfl⟩ := hc
    rw [isWsC_toUpperC]
    exact hw d hd
  · intro c hc
    cases w with
    | nil => simp [capitalizeW] at hc
    | cons a t =>
      simp only [capitalizeW, List.mem_cons, List.mem_map] at hc
      rcases hc with rfl | ⟨d, hd, rfl⟩
      · rw [isWsC_toUpperC]
        exact hw a (List.mem_cons_self a t)
      · rw [isWsC_toLowerC]
        exact hw d (List.mem_cons_of_mem _ hd)
  · intro c hc
    simp only [toLowerS, List.mem_map] at hc
    obtain ⟨d, hd, rfl⟩ := hc
    rw [isWsC_toLowerC]
    exact hw d hd

theorem caseWord_keep (first : Bool) {w : Str} (hw : ∀ c ∈ w, isKeepC c = true) :
    ∀ c ∈ caseWord first w, isKeepC c = true := by
  simp only [caseWord]
  split_ifs
  · intro c hc
    simp only [toUpperS, List.mem_map] at hc
    obtain ⟨d, hd, rfl⟩ := hc
    exact isKeepC_toUpperC (hw d hd)
  · intro c hc
    cases w with
    | nil => simp [capitalizeW] at hc
    | cons a t =>
      simp only [capitalizeW, List.mem_cons, List.mem_map] at hc
      rcases hc with rfl | ⟨d, hd, rfl⟩
      · exact isKeepC_toUpperC (hw a (List.mem_cons_self a t))
      · exact isKeepC_toLowerC (hw d (List.mem_cons_of_mem _ hd))
  · intro c hc
    simp only [toLowerS, List.mem_map] at hc
    obtain ⟨d, hd, rfl⟩ := hc
    exact isKeepC_toLowerC (hw d hd)

/-! ## Helper lemmas: whitespace structure of split, join, collapse, strip -/

theorem splitWsA_good : ∀ (l acc : Str), (∀ c ∈ acc, isWsC c = false) →
    ∀ w ∈ splitWsA l acc, w ≠ [] ∧ ∀ c ∈ w, isWsC c = false := by
  intro l
  induction l with
  | nil =>
    intro acc hacc w hw
    simp only [splitWsA] at hw
    split at hw
    · simp at hw
    next hne =>
      rw [List.mem_singleton] at hw
      subst hw
      refine ⟨by simpa using hne, fun c hc => hacc c (List.mem_reverse.1 hc)⟩
  | cons a t ih =>
    intro acc hacc w hw
    simp only [splitWsA] at hw
    split at hw
    · split at hw
      · exact ih [] (by simp) w hw
      next hne =>
        rcases List.mem_cons.1 hw with rfl | hw'
        · exact ⟨by simpa using hne, fun c hc => hacc c (List.mem_reverse.1 hc)⟩
        · exact ih [] (by simp) w hw'
    next ha =>
      refine ih (a :: acc) ?_ w hw
      intro c hc
      rcases List.mem_cons.1 hc with rfl | hc'
      · simpa using ha
      · exact hacc c hc'

theorem splitWsA_chars (P : Char → Prop) : ∀ (l acc : Str), (∀ c ∈ l, P c) →
    (∀ c ∈ acc, P c) → ∀ w ∈ splitWsA l acc, ∀ c ∈ w, P c := by
  intro l
  induction l with
  | nil =>
    intro acc _ hacc w hw c hc
    simp only [splitWsA] at hw
    split at hw
    · simp at hw
    · rw [List.mem_singleton] at hw
      subst hw
      exact hacc c (List.mem_reverse.1 hc)
  | cons a t ih =>
    intro acc hl hacc w hw c hc
    simp only [splitWsA] at hw
    have hl' : ∀ c ∈ t, P c := fun d hd => hl d (List.mem_cons_of_mem _ hd)
    split at hw
    · split at hw
      · exact ih [] hl' (by simp) w hw c hc
      · rcases List.mem_cons.1 hw with rfl | hw'
        · exact hacc c (List.mem_reverse.1 hc)
        · exact ih [] hl' (by simp) w hw' c hc
    · refine ih (a :: acc) hl' ?_ w hw c hc
      intro d hd
      rcases List.mem_cons.1 hd with rfl | hd'
      · exact hl d (List.mem_cons_self d t)
      · exact hacc d hd'

theorem joinSpace_cons_cons (w v : Str) (u : List Str) :
    joinSpace (w :: v :: u) = w ++ ' ' :: joinSpace (v :: u) := rfl

theorem joinSpace_ne_nil {ws : List Str} (h1 : ws ≠ []) (h2 : ∀ w ∈ ws, w ≠ []) :
    joinSpace ws ≠ [] := by
  cases ws with
  | nil => exact absurd rfl h1
  | cons w t =>
    cases t with
    | nil => exact h2 w (List.mem_cons_self w [])
    | cons v u =>
      rw [joinSpace_cons_cons]
      cases hw : w with
      | nil => exact absurd hw (h2 w (List.mem_cons_self w _))
      | cons c r => simp

theorem joinSpace_head {ws : List Str}
    (h : ∀ w ∈ ws, w ≠ [] ∧ ∀ c ∈ w, isWsC c = false) :
    ∀ c, (joinSpace ws).head? = some c → isWsC c = false := by
  intro c hc
  cases ws with
  | nil => simp [joinSpace] at hc
  | cons w t =>
    obtain ⟨hw1, hw2⟩ := h w (List.mem_cons_self w t)
    cases w with
    | nil => exact absurd rfl hw1
    | cons a r =>
      have hca : c = a := by
        cases t with
        | nil =>
          have hj : joinSpace [a :: r] = a :: r := rfl
          rw [hj, List.head?_cons, Option.some.injEq] at hc
          exact hc.symm
        | cons v u =>
          rw [joinSpace_cons_cons] at hc
          simp only [List.cons_append, List.head?_cons, Option.some.injEq] at hc
          exact hc.symm
      subst hca
      exact hw2 c (List.mem_cons_self c r)

theorem getLast?_cons_ne_none (x : Char) (xs : Str) : (x :: xs).getLast? ≠ none := by
  induction xs generalizing x with
  | nil => simp
  | cons y ys ih => rw [List.getLast?_cons_cons]; exact ih y

theorem mem_of_getLast : ∀ (l : Str) (c : Char), l.getLast? = some c → c ∈ l := by
  intro l
  induction l with
  | nil => intro c hc; simp at hc
  | cons a t ih =>
    intro c hc
    cases t with
    | nil =>
      simp only [List.getLast?_singleton, Option.some.injEq] at hc
      subst hc
      exact List.mem_cons_self _ _
    | cons b u =>
      rw [List.getLast?_cons_cons] at hc
      exact List.mem_cons_of_mem _ (ih c hc)

theorem word_getLast {w : Str} (h2 : ∀ c ∈ w, isWsC c = false) :
    ∀ c, w.getLast? = some c → isWsC c = false := by
  intro c hc
  exact h2 c (mem_of_getLast w c hc)

theorem joinSpace_last {ws : List Str}
    (h : ∀ w ∈ ws, w ≠ [] ∧ ∀ c ∈ w, isWsC c = false) :
    ∀ c, (joinSpace ws).getLast? = some c → isWsC c = false := by
  induction ws with
  | nil => intro c hc; simp [joinSpace] at hc
  | cons w t ih =>
    cases t with
    | nil =>
      exact word_getLast (h w (List.mem_cons_self w [])).2
    | cons v u =>
      intro c hc
      have ht : ∀ w' ∈ v :: u, w' ≠ [] ∧ ∀ c ∈ w', isWsC c = false :=
        fun w' hw' => h w' (List.mem_cons_of_mem _ hw')
      have hne : joinSpace (v :: u) ≠ [] :=
        joinSpace_ne_nil (by simp) (fun w' hw' => (ht w' hw').1)
      rw [joinSpace_cons_cons, List.getLast?_append] at hc
      cases hj : joinSpace (v :: u) with
      | nil => exact absurd hj hne
      | cons x xs =>
        rw [hj, List.getLast?_cons_cons] at hc
        cases hy : (x :: xs).getLast? with
        | none => exact absurd hy (getLast?_cons_ne_none x xs)
        | some y =>
          rw [hy] at hc
          have h' : (some y : Option Char) = some c := hc
          have hyc : y = c := Option.some.inj h'
          subst hyc
          exact ih ht y (by rw [hj]; exact hy)

theorem stripWs_eq_self {l : Str}
    (hh : ∀ c, l.head? = some c → isWsC c = false)
    (hl : ∀ c, l.getLast? = some c → isWsC c = false) : stripWs l = l := by
  cases l with
  | nil => rfl
  | cons a t =>
    have ha : isWsC a = false := hh a rfl
    unfold stripWs
    rw [List.dropWhile_cons, ha]
    simp only [Bool.false_eq_true, if_false]
    cases hr : (a :: t).reverse with
    | nil => exact absurd hr (by simp)
    | cons b u =>
      have hb : isWsC b = false := by
        apply hl
        rw [← List.head?_reverse, hr]
        rfl
      rw [List.dropWhile_cons, hb]
      simp only [Bool.false_eq_true, if_false]
      rw [← hr, List.reverse_reverse]

theorem collapseWs_word {w : Str} (hw : ∀ c ∈ w, isWsC c = false) :
    ∀ r, collapseWs (w ++ r) = w ++ collapseWs r := by
  induction w with
  | nil => intro r; simp
  | cons c u ih =>
    intro r
    have hc : isWsC c = false := hw c (List.mem_cons_self c u)
    simp only [List.cons_append, collapseWs, hc]
    simp only [Bool.false_eq_true, if_false, List.cons.injEq, true_and]
    exact ih (fun d hd => hw d (List.mem_cons_of_mem _ hd)) r

theorem collapseWsRun_eq {r : Str}
    (hr : ∀ c, r.head? = some c → isWsC c = false) : collapseWsRun r = collapseWs r := by
  cases r with
  | nil => rfl
  | cons c t =>
    have hc : isWsC c = false := hr c rfl
    simp only [collapseWsRun, collapseWs, hc, Bool.false_eq_true, if_false]

theorem collapseWs_joinSpace {ws : List Str}
    (h : ∀ w ∈ ws, w ≠ [] ∧ ∀ c ∈ w, isWsC c = false) :
    collapseWs (joinSpace ws) = joinSpace ws := by
  induction ws with
  | nil => rfl
  | cons w t ih =>
    obtain ⟨hw1, hw2⟩ := h w (List.mem_cons_self w t)
    cases t with
    | nil =>
      have := collapseWs_word hw2 []
      simpa [joinSpace, collapseWs] using this
    | cons v u =>
      have ht : ∀ w' ∈ v :: u, w' ≠ [] ∧ ∀ c ∈ w', isWsC c = false :=
        fun w' hw' => h w' (List.mem_cons_of_mem _ hw')
      rw [joinSpace_cons_cons, collapseWs_word hw2]
      have hsp : collapseWs (' ' :: joinSpace (v :: u))
          = ' ' :: collapseWsRun (joinSpace (v :: u)) := by
        simp only [collapseWs]
        rw [if_pos (by decide : isWsC ' ' = true)]
      rw [hsp, collapseWsRun_eq (joinSpace_head ht), ih ht]

theorem splitWsA_word : ∀ (w r acc : Str), (∀ c ∈ w, isWsC c = false) →
    splitWsA (w ++ r) acc = splitWsA r (w.reverse ++ acc) := by
  intro w
  induction w with
  | nil => intro r acc _; simp
  | cons c u ih =>
    intro r acc hw
    have hc : isWsC c = false := hw c (List.mem_cons_self c u)
    simp only [List.cons_append, splitWsA, hc]
    simp only [Bool.false_eq_true, if_false, List.append_eq]
    rw [ih r (c :: acc) (fun d hd => hw d (List.mem_cons_of_mem _ hd))]
    congr 1
    simp

theorem splitWs_joinSpace {ws : List Str}
    (h : ∀ w ∈ ws, w ≠ [] ∧ ∀ c ∈ w, isWsC c = false) :
    splitWs (joinSpace ws) = ws := by
  induction ws with
  | nil => rfl
  | cons w t ih =>
    obtain ⟨hw1, hw2⟩ := h w (List.mem_cons_self w t)
    cases t with
    | nil =>
      show splitWsA (joinSpace [w]) [] = [w]
      have hjw : joinSpace [w] = w ++ [] := by simp [joinSpace]
      rw [hjw, splitWsA_word w [] [] hw2]
      simp only [splitWsA, List.append_nil]
      rw [if_neg (by simpa using hw1)]
      simp
    | cons v u =>
      have ht : ∀ w' ∈ v :: u, w' ≠ [] ∧ ∀ c ∈ w', isWsC c = false :=
        fun w' hw' => h w' (List.mem_cons_of_mem _ hw')
      show splitWsA (joinSpace (w :: v :: u)) [] = _
      rw [joinSpace_cons_cons, splitWsA_word w _ [] hw2]
      simp only [splitWsA]
      rw [if_pos (by decide : isWsC ' ' = true), if_neg (by simpa using hw1)]
      rw [show splitWsA (joinSpace (v :: u)) [] = splitWs (joinSpace (v :: u)) from rfl]
      rw [ih ht]
      simp

theorem mem_collapse : ∀ (l : Str),
    (∀ c ∈ collapseWs l, c ∈ l ∨ c = ' ') ∧ (∀ c ∈ collapseWsRun l, c ∈ l ∨ c = ' ') := by
  intro l
  induction l with
  | nil => simp [collapseWs, collapseWsRun]
  | cons a t ih =>
    constructor
    · intro c hc
      simp only [collapseWs] at hc
      split at hc
      · rcases List.mem_cons.1 hc with rfl | hc'
        · exact Or.inr rfl
        · rcases ih.2 c hc' with h | h
          · exact Or.inl (List.mem_cons_of_mem _ h)
          · exact Or.inr h
      · rcases List.mem_cons.1 hc with rfl | hc'
        · exact Or.inl (List.mem_cons_self c t)
        · rcases ih.1 c hc' with h | h
          · exact Or.inl (List.mem_cons_of_mem _ h)
          · exact Or.inr h
    · intro c hc
      simp only [collapseWsRun] at hc
      split at hc
      · rcases ih.2 c hc with h | h
        · exact Or.inl (List.mem_cons_of_mem _ h)
        · exact Or.inr h
      · rcases List.mem_cons.1 hc with rfl | hc'
        · exact Or.inl (List.mem_cons_self c t)
        · rcases ih.1 c hc' with h | h
          · exact Or.inl (List.mem_cons_of_mem _ h)
          · exact Or.inr h

theorem mem_joinSpace : ∀ (ws : List Str) (c : Char), c ∈ joinSpace ws →
    (∃ w ∈ ws, c ∈ w) ∨ c = ' ' := by
  intro ws
  induction ws with
  | nil => intro c hc; simp [joinSpace] at hc
  | cons w t ih =>
    intro c hc
    cases t with
    | nil =>
      have hj : joinSpace [w] = w := rfl
      rw [hj] at hc
      exact Or.inl ⟨w, List.mem_cons_self w [], hc⟩
    | cons v u =>
      rw [joinSpace_cons_cons] at hc
      rcases List.mem_append.1 hc with h | h
      · exact Or.inl ⟨w, List.mem_cons_self w _, h⟩
      · rcases List.mem_cons.1 h with rfl | h'
        · exact Or.inr rfl
        · rcases ih c h' with ⟨w', hw', hcw⟩ | rfl
          · exact Or.inl ⟨w', List.mem_cons_of_mem _ hw', hcw⟩
          · exact Or.inr rfl

/-! ## Helper lemmas: the stable descending sort of the ranker -/

theorem insertScored_perm (a : Scored) (l : List Scored) :
    List.Perm (insertScored a l) (a :: l) := by
  induction l with
  | nil => exact List.Perm.refl _
  | cons b t ih =>
    simp only [insertScored]
    split
    · exact List.Perm.refl _
    · exact (List.Perm.cons b ih).trans (List.Perm.swap a b t)

theorem sortScored_perm (l : List Scored) : List.Perm (sortScored l) l := by
  induction l with
  | nil => exact List.Perm.refl _
  | cons a t ih => exact (insertScored_perm a (sortScored t)).trans (List.Perm.cons a ih)

theorem insertScored_pairwise (a : Scored) (l : List Scored)
    (h : l.Pairwise (fun x y => y.2.2 ≤ x.2.2)) :
    (insertScored a l).Pairwise (fun x y => y.2.2 ≤ x.2.2) := by
  induction l with
  | nil => simp [insertScored]
  | cons b t ih =>
    simp only [insertScored]
    split
    next hba =>
      refine List.Pairwise.cons ?_ h
      intro x hx
      rcases List.mem_cons.1 hx with rfl | hx'
      · exact hba
      · exact le_trans (List.rel_of_pairwise_cons h hx') hba
    next hba =>
      push_neg at hba
      obtain ⟨hb, ht⟩ := List.pairwise_cons.1 h
      refine List.pairwise_cons.2 ⟨?_, ih ht⟩
      intro x hx
      rcases List.mem_cons.1 ((insertScored_perm a t).subset hx) with rfl | hx'
      · exact le_of_lt hba
      · exact hb x hx'

theorem sortScored_pairwise (l : List Scored) :
    (sortScored l).Pairwise (fun x y => y.2.2 ≤ x.2.2) := by
  induction l with
  | nil => simp [sortScored]
  | cons a t ih => exact insertScored_pairwise a _ ih

open scoped Classical in
theorem insertScored_filter (c : ℝ) (a : Scored) (l : List Scored) :
    (insertScored a l).filter (fun t => decide (t.2.2 = c))
      = (a :: l).filter (fun t => decide (t.2.2 = c)) := by
  induction l with
  | nil => rfl
  | cons b t ih =>
    simp only [insertScored]
    split
    next => rfl
    next hba =>
      push_neg at hba
      by_cases ha : a.2.2 = c <;> by_cases hb : b.2.2 = c
      · rw [ha, ← hb] at hba
        exact absurd hba (lt_irrefl _)
      · simp only [List.filter_cons] at ih ⊢
        simp [ih, ha, hb]
      · simp only [List.filter_cons] at ih ⊢
        simp [ih, ha, hb]
      · simp only [List.filter_cons] at ih ⊢
        simp [ih, ha, hb]

open scoped Classical in
theorem sortScored_filter (c : ℝ) (l : List Scored) :
    (sortScored l).filter (fun t => decide (t.2.2 = c))
      = l.filter (fun t => decide (t.2.2 = c)) := by
  induction l with
  | nil => rfl
  | cons a t ih =>
    show (insertScored a (sortScored t)).filter _ = _
    rw [insertScored_filter c a (sortScored t)]
    by_cases ha : a.2.2 = c <;> simp [List.filter_cons, ha, ih]

theorem round3_mono {x y : ℝ} (h : x ≤ y) : round3 x ≤ round3 y := by
  unfold round3
  have h1 : (⌊x * 1000 + 1 / 2⌋ : ℤ) ≤ ⌊y * 1000 + 1 / 2⌋ := Int.floor_mono (by linarith)
  have h2 : ((⌊x * 1000 + 1 / 2⌋ : ℤ) : ℝ) ≤ ((⌊y * 1000 + 1 / 2⌋ : ℤ) : ℝ) := by
    exact_mod_cast h1
  linarith

/-! ## Claim theorems -/

/-- Claim C1: on the menu text
`"Starters\nBruschetta - $9.00\nMains\nGrilled Salmon 22.00\nDesserts\nChocolate Cake"`
the claim expects appetizer `["Bruschetta"]`, but the code produces
`["Bruschetta -"]`: the sub for `\s*\$?\d+\.?\d*\s*$` removes `" $9.00"` first,
so the dedicated `- $XX.XX` sub (whose own comment announces removing the dash)
can never fire and the dangling `"- "` survives into the dish name.  The mains
and desserts entries come out as the claim states. -/
theorem C1_menu_scenario_actual :
    extract_dishes_from_menu
      (strL "Starters\nBruschetta - $9.00\nMains\nGrilled Salmon 22.00\nDesserts\nChocolate Cake")
      = ⟨[strL "Bruschetta -"], [strL "Grilled Salmon"], [strL "Chocolate Cake"]⟩ := by
  decide

/-- Claim C2: the claim (and the code's own comments) say a line exactly equal
to a reserved keyword such as `"vegan"` is rejected by `is_dish_name`, while a
line merely containing a keyword such as `"Vegan Burger"` survives.  In the
code the rejection branch is unreachable (`if not any(kw == line)` guards
`if line in keywords`, which can then never hold), so `"vegan"`, `"menu"` and
`"am"` are all accepted, contradicting the claim's first half; the second half
(`"Vegan Burger"` survives) does hold. -/
theorem C2_keyword_rejection_unreachable :
    is_dish_name (strL "vegan") = true ∧ is_dish_name (strL "menu") = true ∧
      is_dish_name (strL "am") = true ∧ is_dish_name (strL "Vegan Burger") = true := by
  decide

/-- Claim C9: the claim (and the comment on the `re.sub` line) say every
character outside letters/digits/whitespace/hyphen/apostrophe/ampersand/comma/
parentheses is stripped, but the implementing class is `[^\w\s\-\'&,()]` and
`\w` also keeps the underscore: `normalize_dish_name "a_b" = "A_b"`, whose
underscore is outside the claimed set. -/
theorem C9_underscore_survives :
    normalize_dish_name (strL "a_b") = strL "A_b" ∧
      (strL "A_b").all specC9AllowedChar = false := by
  decide

/-- Claim C5 (counterexample): `capMenu` repeats the dish "Vindaloo Special" in
two casings, yet the extracted mains list contains it zero times, not exactly
once — it is the 21st distinct dish of its category, and the cap to 20 entries
is applied after deduplication, dropping it entirely. -/
theorem C5_cap_drops_repeated_dish :
    ((extract_dishes_from_menu capMenu).mains).countP
        (fun d => toLowerS d == strL "vindaloo special") = 0 ∧
      (extract_dishes_from_menu capMenu).mains.length = 20 ∧
      (extractRaw capMenu).mains.countP
        (fun d => toLowerS d == strL "vindaloo special") = 1 := by
  decide

/-- Claim C10: for every input menu text (including the empty one),
`extract_dishes_from_menu` returns the three category lists (the fixed-key
mapping is the `CatDishes` record), and every string in any of them has length
at least 2 and is not classified as a price line by `is_price_line`: entries
are appended only behind guards that re-check both conditions, and the final
dedup/cap pass only removes entries. -/
theorem C10_extract_entries_guarded (menu : Str) (c : Cat)
    (i : Fin (getCat c (extract_dishes_from_menu menu)).length) :
    2 ≤ ((getCat c (extract_dishes_from_menu menu)).get i).length ∧
      is_price_line ((getCat c (extract_dishes_from_menu menu)).get i) = false := by
  have hsub : List.Sublist (getCat c (extract_dishes_from_menu menu))
      (getCat c (extractRaw menu)) := by
    rw [getCat_extract]; exact postPass_sublist _
  have hmem : (getCat c (extract_dishes_from_menu menu)).get i ∈
      getCat c (extract_dishes_from_menu menu) := List.get_mem _ i.1 i.2
  exact extractRaw_dishOk menu c _ (hsub.subset hmem)

/-- Claim C5 (amended): every category list of `extract_dishes_from_menu` has
at most 20 entries, no two of its entries are equal up to case, it is a
subsequence of the dishes accumulated by the extraction loop (first-seen order
preserved), and each of its entries is the first dish of its case-insensitive
class in that accumulated list (first-seen casing).  The last conjunct is the
positive half of the amended claim: every dish of the accumulated list has
its case-insensitive class appearing exactly once in the output — unless the
output is at the 20-entry cap, applied after deduplication, and the class was
dropped entirely, in which case it appears zero times (the counterexample
shows this case is reached). -/
theorem C5_dedup_cap_invariant (menu : Str) (c : Cat) :
    (getCat c (extract_dishes_from_menu menu)).length ≤ 20 ∧
      (getCat c (extract_dishes_from_menu menu)).Pairwise
        (fun a b => toLowerS a ≠ toLowerS b) ∧
      List.Sublist (getCat c (extract_dishes_from_menu menu)) (getCat c (extractRaw menu)) ∧
      (∀ i : Fin (getCat c (extract_dishes_from_menu menu)).length,
        (getCat c (extractRaw menu)).find?
            (fun y => toLowerS y == toLowerS ((getCat c (extract_dishes_from_menu menu)).get i))
          = some ((getCat c (extract_dishes_from_menu menu)).get i)) ∧
      ∀ j : Fin (getCat c (extractRaw menu)).length,
        (getCat c (extract_dishes_from_menu menu)).countP
            (fun y => toLowerS y == toLowerS ((getCat c (extractRaw menu)).get j)) = 1 ∨
          ((getCat c (extract_dishes_from_menu menu)).length = 20 ∧
            (getCat c (extract_dishes_from_menu menu)).countP
              (fun y => toLowerS y == toLowerS ((getCat c (extractRaw menu)).get j)) = 0) := by
  refine ⟨?_, ?_, ?_, ?_, ?_⟩
  · rw [getCat_extract]; exact List.length_take_le 20 _
  · rw [getCat_extract]
    exact (dedupLowGo_pairwise _ []).sublist (List.take_sublist _ _)
  · rw [getCat_extract]; exact postPass_sublist _
  · intro i
    set x := (getCat c (extract_dishes_from_menu menu)).get i with hx
    have hmemx : x ∈ getCat c (extract_dishes_from_menu menu) := List.get_mem _ i.1 i.2
    rw [getCat_extract] at hmemx
    have hmem : x ∈ dedupLowGo [] (getCat c (extractRaw menu)) :=
      (List.take_sublist _ _).subset hmemx
    exact (dedupLowGo_spec _ [] _ hmem).2
  · intro j
    have hxmem : (getCat c (extractRaw menu)).get j ∈ getCat c (extractRaw menu) :=
      List.get_mem _ j.1 j.2
    rcases dedupLowGo_covers (getCat c (extractRaw menu)) []
        ((getCat c (extractRaw menu)).get j) hxmem with hin | ⟨y, hy, hyx⟩
    · exact absurd hin (List.not_mem_nil _)
    · rw [getCat_extract]
      by_cases hyo : y ∈ postPass (getCat c (extractRaw menu))
      · left
        have hpos : 0 < (postPass (getCat c (extractRaw menu))).countP
            (fun z => toLowerS z == toLowerS ((getCat c (extractRaw menu)).get j)) :=
          List.countP_pos_iff.2 ⟨y, hyo, by simp [hyx]⟩
        have hle : (postPass (getCat c (extractRaw menu))).countP
            (fun z => toLowerS z == toLowerS ((getCat c (extractRaw menu)).get j)) ≤ 1 :=
          countP_lowNe_le_one _ _
            ((dedupLowGo_pairwise _ []).sublist (List.take_sublist _ _))
        omega
      · right
        have hlen : 20 < (dedupLowGo [] (getCat c (extractRaw menu))).length := by
          by_contra hle20
          push_neg at hle20
          have htk : postPass (getCat c (extractRaw menu))
              = dedupLowGo [] (getCat c (extractRaw menu)) := by
            unfold postPass
            exact List.take_of_length_le hle20
          exact hyo (htk ▸ hy)
        refine ⟨?_, ?_⟩
        · unfold postPass
          rw [List.length_take]
          omega
        · rw [List.countP_eq_zero]
          intro z hz
          simp only [beq_iff_eq]
          intro hzx
          have hzd : z ∈ dedupLowGo [] (getCat c (extractRaw menu)) :=
            (List.take_sublist _ _).subset hz
          have hzy : z = y := pairwise_lowNe_unique _ (dedupLowGo_pairwise _ []) z y hzd hy
            (by rw [hzx, ← hyx])
          exact hyo (hzy ▸ hz)

/-- Counterexample to claim C4 as stated: tier 2 is not substring
containment.  On the query "a.c" against the single dataset name "abc", the
source's tier 2 — pandas `str.contains`, i.e. `re.search` of the query as a
regex — matches (`.` matches `b`) and the function returns the row, although
the query is not a substring of the name and `claimFindRecipe`, the claim as
worded, returns no match (the two names share no word, so its tier 3 cannot
select the row either).  On the query "fish (" the pattern is an invalid
regex and the function raises `re.error` where the claim says tier 3 runs. -/
theorem C4_containment_counterexample :
    find_recipe_by_name (strL "a.c") [rAbc] = .ok (some rAbc) ∧
      isSubstr (stripWs (toLowerS (strL "a.c"))) (toLowerS rAbc.name) = false ∧
      claimFindRecipe (strL "a.c") [rAbc] = none ∧
      find_recipe_by_name (strL "fish (") [rAbc] = .error () := by
  refine ⟨rfl, by decide, ?_, rfl⟩
  have hf1 : ([rAbc].find? (fun r => toLowerS r.name == stripWs (toLowerS (strL "a.c"))))
      = none := rfl
  have hf2 : ([rAbc].find? (fun r =>
      isSubstr (stripWs (toLowerS (strL "a.c"))) (toLowerS r.name))) = none := rfl
  have hw : wordScore ((splitWs (stripWs (toLowerS (strL "a.c")))).dedup) rAbc = 0 := by
    simp only [wordScore]
    rw [show (((splitWs (stripWs (toLowerS (strL "a.c")))).dedup).filter
      (fun w => w ∈ (splitWs (toLowerS rAbc.name)).dedup)) = [] from by decide]
    simp
  have hmax : ¬((([rAbc].map (wordScore
      ((splitWs (stripWs (toLowerS (strL "a.c")))).dedup))).foldr max 0 : ℚ) > 3 / 10) := by
    simp only [List.map_cons, List.map_nil, List.foldr_cons, List.foldr_nil, hw, max_self]
    norm_num
  simp only [claimFindRecipe, hf1, hf2]
  rw [if_neg hmax]

/-- Claim C4 (amended): `find_recipe_by_name` applies three tiers in order
with first success winning — (1) the first row whose lower-cased name equals
the lower-cased, trimmed query; (2) the query is interpreted as a regular
expression, as pandas `str.contains` does by default: the first row whose
lower-cased name contains a match is returned, and an invalid pattern raises
instead of falling through; (3) the row maximizing the deduplicated
word-overlap score (first row on ties), returned only when that maximum
exceeds 0.3, else no match.  The second conjunct recovers the original
claim's wording on its sound domain: on queries free of regex
metacharacters, the regex tier 2 is exactly substring containment. -/
theorem C4_find_recipe_three_tiers_regex :
    (∀ (name : Str) (df : List Recipe),
        find_recipe_by_name name df = claimFindRecipeAmended name df) ∧
      ∀ q s : Str, (q.all (fun c => !isMetaC c)) = true →
        (pyCompile q).map (fun r => pySearch r s) = some (isSubstr q s) := by
  constructor
  · intro name df
    simp only [find_recipe_by_name, claimFindRecipeAmended, head?_filter_eq_find?]
    cases h1 : df.find? (fun r => toLowerS r.name == stripWs (toLowerS name)) with
    | some r => rfl
    | none =>
      cases hp : pyCompile (stripWs (toLowerS name)) with
      | none => rfl
      | some pat =>
        simp only []
        cases h2 : df.find? (fun r => pySearch pat (toLowerS r.name)) with
        | some r => rfl
        | none => exact congrArg Except.ok (tier3_eq_max (stripWs (toLowerS name)) df)
  · intro q s hq
    rw [pyCompile_lit q hq, Option.map_some', pySearch_lit]

/-- Witness for the metacharacter-free hypothesis of
`C4_find_recipe_three_tiers_regex`, at a concrete query and candidate. -/
theorem C4_find_recipe_three_tiers_regex_witness :
    ((strL "chicken").all (fun c => !isMetaC c)) = true ∧
      (pyCompile (strL "chicken")).map (fun r => pySearch r (strL "spicy chicken soup"))
        = some (isSubstr (strL "chicken") (strL "spicy chicken soup")) :=
  ⟨by decide, C4_find_recipe_three_tiers_regex.2 (strL "chicken")
    (strL "spicy chicken soup") (by decide)⟩

/-- Claim C7: `calculate_average_flavor_profile` returns the all-zero
five-component vector for an empty recipe list, and otherwise returns, for
each of spicy, sweet, umami, sour, salty, the arithmetic mean over all
provided recipes (a missing component counting as 0) rounded to 2 decimal
digits. -/
theorem C7_average_profile (recipes : List FlavorOpt) :
    calculate_average_flavor_profile [] = ⟨0, 0, 0, 0, 0⟩ ∧
      (recipes ≠ [] →
        (calculate_average_flavor_profile recipes).spicy
            = round2 ((recipes.map (fun p => p.spicy.getD 0)).sum / (recipes.length : ℚ)) ∧
          (calculate_average_flavor_profile recipes).sweet
            = round2 ((recipes.map (fun p => p.sweet.getD 0)).sum / (recipes.length : ℚ)) ∧
          (calculate_average_flavor_profile recipes).umami
            = round2 ((recipes.map (fun p => p.umami.getD 0)).sum / (recipes.length : ℚ)) ∧
          (calculate_average_flavor_profile recipes).sour
            = round2 ((recipes.map (fun p => p.sour.getD 0)).sum / (recipes.length : ℚ)) ∧
          (calculate_average_flavor_profile recipes).salty
            = round2 ((recipes.map (fun p => p.salty.getD 0)).sum / (recipes.length : ℚ))) := by
  refine ⟨rfl, fun h => ?_⟩
  unfold calculate_average_flavor_profile npMean
  rw [if_neg h]
  simp [List.length_map]

def c7Recipes : List FlavorOpt :=
  [⟨some 1, none, some 2, some 3, some 4⟩, ⟨some 3, some 2, none, some 1, some 0⟩]

/-- Witness for C7 at a concrete two-recipe list with missing components:
the spicy mean is (1+3)/2 = 2 and round2 leaves it unchanged. -/
theorem C7_average_profile_witness :
    c7Recipes ≠ [] ∧ (calculate_average_flavor_profile c7Recipes).spicy = 2 := by
  have h := ((C7_average_profile c7Recipes).2 (by simp [c7Recipes])).1
  refine ⟨by simp [c7Recipes], ?_⟩
  rw [h]
  have hs : ((c7Recipes.map (fun p => p.spicy.getD 0)).sum / (c7Recipes.length : ℚ)) = 2 := by
    simp [c7Recipes]
    norm_num
  rw [hs, round2]
  have hf : ⌊(2 : ℚ) * 100 + 1 / 2⌋ = 200 := by
    rw [Int.floor_eq_iff]
    norm_num
  rw [hf]
  norm_num

/-- Claim C6: `calculate_similarity` returns 0.0 when either 5-dimensional
flavor vector has zero magnitude, and for profiles with non-negative
components the returned cosine similarity lies in [0, 1] (Cauchy-Schwarz for
the upper bound). -/
theorem C6_similarity_bounds (p q : FlavorR) :
    (normF p = 0 ∨ normF q = 0 → calculate_similarity p q = 0) ∧
      (NonnegF p → NonnegF q →
        0 ≤ calculate_similarity p q ∧ calculate_similarity p q ≤ 1) := by
  constructor
  · intro h
    unfold calculate_similarity
    rw [if_pos h]
  · intro hp hq
    unfold calculate_similarity
    by_cases h : normF p = 0 ∨ normF q = 0
    · rw [if_pos h]
      norm_num
    · rw [if_neg h]
      push_neg at h
      obtain ⟨hp0, hq0⟩ := h
      have hpn : 0 < normF p := lt_of_le_of_ne (Real.sqrt_nonneg _) (Ne.symm hp0)
      have hqn : 0 < normF q := lt_of_le_of_ne (Real.sqrt_nonneg _) (Ne.symm hq0)
      obtain ⟨ha1, ha2, ha3, ha4, ha5⟩ := hp
      obtain ⟨hb1, hb2, hb3, hb4, hb5⟩ := hq
      have hdot : 0 ≤ dotF p q := by
        unfold dotF
        have m1 := mul_nonneg ha1 hb1
        have m2 := mul_nonneg ha2 hb2
        have m3 := mul_nonneg ha3 hb3
        have m4 := mul_nonneg ha4 hb4
        have m5 := mul_nonneg ha5 hb5
        linarith
      constructor
      · exact div_nonneg hdot (le_of_lt (mul_pos hpn hqn))
      · rw [div_le_one (mul_pos hpn hqn)]
        have hpp : 0 ≤ dotF p p := by
          unfold dotF
          have s1 := mul_self_nonneg p.spicy
          have s2 := mul_self_nonneg p.sweet
          have s3 := mul_self_nonneg p.umami
          have s4 := mul_self_nonneg p.sour
          have s5 := mul_self_nonneg p.salty
          linarith
        have hcs : dotF p q * dotF p q ≤ dotF p p * dotF q q := by
          unfold dotF
          nlinarith [sq_nonneg (p.spicy * q.sweet - p.sweet * q.spicy),
            sq_nonneg (p.spicy * q.umami - p.umami * q.spicy),
            sq_nonneg (p.spicy * q.sour - p.sour * q.spicy),
            sq_nonneg (p.spicy * q.salty - p.salty * q.spicy),
            sq_nonneg (p.sweet * q.umami - p.umami * q.sweet),
            sq_nonneg (p.sweet * q.sour - p.sour * q.sweet),
            sq_nonneg (p.sweet * q.salty - p.salty * q.sweet),
            sq_nonneg (p.umami * q.sour - p.sour * q.umami),
            sq_nonneg (p.umami * q.salty - p.salty * q.umami),
            sq_nonneg (p.sour * q.salty - p.salty * q.sour)]
        have hmul : normF p * normF q = Real.sqrt (dotF p p * dotF q q) :=
          (Real.sqrt_mul hpp (dotF q q)).symm
        rw [hmul]
        calc dotF p q = Real.sqrt (dotF p q ^ 2) := (Real.sqrt_sq hdot).symm
          _ ≤ Real.sqrt (dotF p p * dotF q q) := by
              apply Real.sqrt_le_sqrt
              nlinarith [hcs]

def c6p : FlavorR := ⟨1, 2, 3, 4, 5⟩

def c6q : FlavorR := ⟨0, 0, 0, 0, 0⟩

/-- Witness for C6 at concrete profiles: the all-zero second vector forces
similarity 0, which lies in [0, 1]. -/
theorem C6_similarity_bounds_witness :
    calculate_similarity c6p c6q = 0 ∧ 0 ≤ calculate_similarity c6p c6q ∧
      calculate_similarity c6p c6q ≤ 1 := by
  have hz : normF c6q = 0 := by
    unfold normF dotF c6q
    norm_num
  exact ⟨(C6_similarity_bounds c6p c6q).1 (Or.inr hz),
    (C6_similarity_bounds c6p c6q).2 (by unfold NonnegF c6p; norm_num)
      (by unfold NonnegF c6q; norm_num)⟩

/-- Claim C8: `normalize_dish_name` is idempotent — its output consists of
nonempty whitespace-free cased words joined by single spaces over the kept
character class, and every pass of the normalizer (strip, collapse, character
filter, split, per-word casing, join) fixes such strings. -/
theorem C8_normalize_idempotent (s : Str) :
    normalize_dish_name (normalize_dish_name s) = normalize_dish_name s := by
  by_cases hs : s = []
  · subst hs
    rfl
  · have hnds : normalize_dish_name s =
        if splitWs (collapseWs ((collapseWs (stripWs s)).filter isKeepC)) = [] then []
        else stripWs (joinSpace (caseWords
          (splitWs (collapseWs ((collapseWs (stripWs s)).filter isKeepC))))) := by
      simp only [normalize_dish_name]
      rw [if_neg hs]
    by_cases hw : splitWs (collapseWs ((collapseWs (stripWs s)).filter isKeepC)) = []
    · rw [hnds, if_pos hw]
      rfl
    · rw [hnds, if_neg hw]
      generalize hWS : splitWs (collapseWs ((collapseWs (stripWs s)).filter isKeepC))
        = ws at hw ⊢
      have hgood : ∀ w ∈ ws, w ≠ [] ∧ ∀ c ∈ w, isWsC c = false := by
        rw [← hWS]
        exact fun w hw' => splitWsA_good _ [] (by simp) w hw'
      have hkeep : ∀ w ∈ ws, ∀ c ∈ w, isKeepC c = true := by
        rw [← hWS]
        intro w hw' c hc
        refine splitWsA_chars (fun c => isKeepC c = true) _ [] ?_ (by simp) w hw' c hc
        intro d hd
        rcases (mem_collapse _).1 d hd with hmem | rfl
        · exact List.of_mem_filter hmem
        · decide
      have hgood' : ∀ w ∈ caseWords ws, w ≠ [] ∧ ∀ c ∈ w, isWsC c = false := by
        intro w hw'
        cases ws with
        | nil => simp [caseWords] at hw'
        | cons w0 t0 =>
          simp only [caseWords, List.mem_cons, List.mem_map] at hw'
          rcases hw' with rfl | ⟨v, hv, rfl⟩
          · obtain ⟨h1, h2⟩ := hgood w0 (List.mem_cons_self w0 t0)
            exact ⟨caseWord_ne_nil true h1, caseWord_noWs true h2⟩
          · obtain ⟨h1, h2⟩ := hgood v (List.mem_cons_of_mem _ hv)
            exact ⟨caseWord_ne_nil false h1, caseWord_noWs false h2⟩
      have hkeep' : ∀ w ∈ caseWords ws, ∀ c ∈ w, isKeepC c = true := by
        intro w hw'
        cases ws with
        | nil => simp [caseWords] at hw'
        | cons w0 t0 =>
          simp only [caseWords, List.mem_cons, List.mem_map] at hw'
          rcases hw' with rfl | ⟨v, hv, rfl⟩
          · exact caseWord_keep true (hkeep w0 (List.mem_cons_self w0 t0))
          · exact caseWord_keep false (hkeep v (List.mem_cons_of_mem _ hv))
      have hcne : caseWords ws ≠ [] := by
        cases ws with
        | nil => exact absurd rfl hw
        | cons w0 t0 => simp [caseWords]
      have hstrip : stripWs (joinSpace (caseWords ws)) = joinSpace (caseWords ws) :=
        stripWs_eq_self (joinSpace_head hgood') (joinSpace_last hgood')
      rw [hstrip]
      have hrne : joinSpace (caseWords ws) ≠ [] :=
        joinSpace_ne_nil hcne (fun w hw' => (hgood' w hw').1)
      have hr2 : collapseWs (joinSpace (caseWords ws)) = joinSpace (caseWords ws) :=
        collapseWs_joinSpace hgood'
      have hr3 : (joinSpace (caseWords ws)).filter isKeepC = joinSpace (caseWords ws) := by
        rw [List.filter_eq_self]
        intro c hc
        rcases mem_joinSpace _ c hc with ⟨w', hw', hcw⟩ | rfl
        · exact hkeep' w' hw' c hcw
        · decide
      have hr4 : splitWs (joinSpace (caseWords ws)) = caseWords ws :=
        splitWs_joinSpace hgood'
      have hexp : normalize_dish_name (joinSpace (caseWords ws)) =
          if splitWs (collapseWs ((collapseWs (stripWs (joinSpace (caseWords ws)))).filter
            isKeepC)) = [] then []
          else stripWs (joinSpace (caseWords (splitWs (collapseWs ((collapseWs (stripWs
            (joinSpace (caseWords ws)))).filter isKeepC))))) := by
        simp only [normalize_dish_name]
        rw [if_neg hrne]
      rw [hexp, hstrip, hr2, hr3, hr2, hr4, if_neg hcne, caseWords_idem, hstrip]

open scoped Classical in
/-- Claim C3: for every user category profile and every list of matched
(display name, recipe) candidates, the ranking output of the per-category
block of `get_recommendations` is sorted by similarity score descending (the
stored scores are the raw scores rounded to 3 decimals, and rounding is
monotone), the original encounter order is preserved among equal raw scores
(the sort is stable: filtering any score class commutes with sorting), the
output length is `min 5 (number of matched candidates)`, and each returned
entry carries the original menu/display name of some input pair together with
that pair's matched recipe id — not the recipe's catalog name. -/
theorem C3_rank_sorted_stable_top5 (up : FlavorR) (cat : Cat)
    (pairs : List (Str × Recipe)) :
    (rankCategory up cat pairs).Pairwise
        (fun a b => b.similarity_score ≤ a.similarity_score) ∧
      (rankCategory up cat pairs).length = min 5 pairs.length ∧
      (∀ c : ℝ, (sortScored (scoreItems up pairs)).filter (fun t => decide (t.2.2 = c))
          = (scoreItems up pairs).filter (fun t => decide (t.2.2 = c))) ∧
      ∀ i : Fin (rankCategory up cat pairs).length, ∃ j : Fin pairs.length,
        ((rankCategory up cat pairs).get i).name = (pairs.get j).1 ∧
          ((rankCategory up cat pairs).get i).id = (pairs.get j).2.id := by
  refine ⟨?_, ?_, fun c => sortScored_filter c _, ?_⟩
  · have ht : ((sortScored (scoreItems up pairs)).take 5).Pairwise
        (fun x y => y.2.2 ≤ x.2.2) :=
      (sortScored_pairwise _).sublist (List.take_sublist _ _)
    unfold rankCategory
    rw [List.pairwise_map]
    exact ht.imp (fun h => round3_mono h)
  · show (rankCategory up cat pairs).length = min 5 pairs.length
    unfold rankCategory
    rw [List.length_map, List.length_take, (sortScored_perm _).length_eq]
    unfold scoreItems
    rw [List.length_map]
  · intro i
    obtain ⟨t, ht, hte⟩ := List.mem_map.1 (List.get_mem (rankCategory up cat pairs) i.1 i.2)
    have hts : t ∈ scoreItems up pairs :=
      (sortScored_perm _).subset ((List.take_sublist _ _).subset ht)
    obtain ⟨pr, hpr, hprt⟩ := List.mem_map.1 hts
    obtain ⟨j, hj⟩ := List.mem_iff_get.1 hpr
    subst hprt
    subst hj
    exact ⟨j, by rw [← hte], by rw [← hte]⟩

end Swaad
